import Mathlib

/-!
Verification development for the `vnpy_websocket` WebsocketClient
(`src/vnpy_websocket/websocket_client.py`).

The development has three layers:

1. A model of the default packet codec.  The source delegates to Python's
   `json` module (`json.dumps` in `send_packet`, `json.loads` in
   `unpack_data`), which is an external collaborator; it is modelled here by
   `dumps` (serializer with `ensure_ascii` escaping, `", "` / `": "`
   separators and insertion-ordered object members, as `json.dumps` defaults
   to) and `loads` (a character-level JSON parser with the whitespace,
   string-escape, surrogate-pair and leading-zero rules of the `json`
   module).  The model restricts JSON numbers to integers: float literals,
   and the module's non-standard `NaN`/`Infinity` extensions, are floating
   point and outside the model.

2. A model of the client object: `ClientState` mirrors the attributes set in
   `WebsocketClient.__init__`, `clientInit` mirrors `init`, `send_packet`,
   `_record_last_sent_text`, `_record_last_received_text`, `_log`,
   `exception_detail` and `on_error` mirror the methods of the same names,
   and `runSession` / `processFrames` mirror the `_run` coroutine, producing
   the ordered list of observable actions (`WEvent`) of one connection
   session together with the resulting state and the exception, if any, that
   propagates out of the coroutine.  Threading and event-loop plumbing
   (`start`, `stop`, `join`, `run`) are not modelled; `runSession` is the
   body of the task they schedule.

3. Theorems settling the frozen claims about the spec, with supporting
   lemmas: a round-trip law for the codec, soundness of the parser against
   an inductive JSON grammar, and trace/state properties of the session.
-/

/-- JSON values as exchanged by the default codec.  Numbers are restricted to
integers (see the module comment); objects keep insertion order, as Python
dicts and `json.dumps` do. -/
inductive JValue where
  | null : JValue
  | bool (b : Bool) : JValue
  | int (i : Int) : JValue
  | str (s : String) : JValue
  | arr (elems : List JValue) : JValue
  | obj (fields : List (String × JValue)) : JValue

/-- The left-brace character, written via its code point. -/
def lbrace : Char := Char.ofNat 123

/-- The right-brace character, written via its code point. -/
def rbrace : Char := Char.ofNat 125

/-- Lower-case hexadecimal digit, as `json.dumps` emits in `\uXXXX` escapes. -/
def hexDigitCh (n : Nat) : Char :=
  if n < 10 then Char.ofNat (48 + n) else Char.ofNat (87 + n)

/-- Four-digit lower-case hexadecimal rendering of `n < 0x10000`. -/
def hex4 (n : Nat) : List Char :=
  [hexDigitCh (n / 4096 % 16), hexDigitCh (n / 256 % 16),
   hexDigitCh (n / 16 % 16), hexDigitCh (n % 16)]

/-- Escaping of one character by `json.dumps` with its default
`ensure_ascii=True`: the two-character shorthands, printable ASCII kept
as-is, and everything else as `\uXXXX` (a surrogate pair for astral code
points). -/
def escapeChar (c : Char) : List Char :=
  if c = '"' then ['\\', '"']
  else if c = '\\' then ['\\', '\\']
  else if c = Char.ofNat 8 then ['\\', 'b']
  else if c = Char.ofNat 12 then ['\\', 'f']
  else if c = '\n' then ['\\', 'n']
  else if c = '\r' then ['\\', 'r']
  else if c = '\t' then ['\\', 't']
  else if 32 ≤ c.toNat ∧ c.toNat ≤ 126 then [c]
  else if c.toNat < 65536 then '\\' :: 'u' :: hex4 c.toNat
  else
    ('\\' :: 'u' :: hex4 (55296 + (c.toNat - 65536) / 1024)) ++
    ('\\' :: 'u' :: hex4 (56320 + (c.toNat - 65536) % 1024))

/-- Escaped rendering of a string body (no surrounding quotes). -/
def encodeStrBody : List Char → List Char
  | [] => []
  | c :: cs => escapeChar c ++ encodeStrBody cs

/-- A JSON string literal: quoted, escaped body. -/
def encodeStringCh (s : String) : List Char :=
  '"' :: encodeStrBody s.data ++ ['"']

/-- Decimal digits of `n ≥ 1`, most significant first, driven by fuel `f ≥ n`
so that the definition is structural and kernel-computable. -/
def digitsGo : Nat → Nat → List Char
  | 0, _ => []
  | f + 1, n =>
    if n < 10 then [Char.ofNat (48 + n)]
    else digitsGo f (n / 10) ++ [Char.ofNat (48 + n % 10)]

/-- Decimal rendering of a natural number, as Python's `str`. -/
def natDigits (n : Nat) : List Char :=
  if n = 0 then ['0'] else digitsGo n n

/-- Decimal rendering of an integer, as Python's `str` (used both by the
codec's number output and by the proxy URL's port formatting). -/
def intChars (i : Int) : List Char :=
  if i < 0 then '-' :: natDigits i.natAbs else natDigits i.natAbs

mutual
/-- Characters emitted by `json.dumps` (default separators) for a value. -/
def dumpsVC : JValue → List Char
  | .bool true => ['t', 'r', 'u', 'e']
  | .bool false => ['f', 'a', 'l', 's', 'e']
  | .null => ['n', 'u', 'l', 'l']
  | .int i => intChars i
  | .str s => encodeStringCh s
  | .arr xs => '[' :: dumpsEC xs ++ [']']
  | .obj fs => lbrace :: dumpsMC fs ++ [rbrace]
/-- Array elements, joined by the default `", "` separator. -/
def dumpsEC : List JValue → List Char
  | [] => []
  | x :: xs => dumpsVC x ++ (if xs.isEmpty then [] else ',' :: ' ' :: dumpsEC xs)
/-- Object members, `"key": value`, joined by the default `", "` separator. -/
def dumpsMC : List (String × JValue) → List Char
  | [] => []
  | (k, v) :: fs =>
    encodeStringCh k ++ ':' :: ' ' ::
      (dumpsVC v ++ (if fs.isEmpty then [] else ',' :: ' ' :: dumpsMC fs))
end

/-- Model of `json.dumps` with its defaults, the encoder used by
`WebsocketClient.send_packet`. -/
def dumps (v : JValue) : String := String.mk (dumpsVC v)

/-- The whitespace characters the `json` module skips between tokens. -/
def isWsCh (c : Char) : Bool := c = ' ' || c = '\t' || c = '\n' || c = '\r'

/-- Drop leading JSON whitespace. -/
def skipWs : List Char → List Char
  | [] => []
  | c :: rest => if isWsCh c then skipWs rest else c :: rest

/-- ASCII decimal digit test. -/
def isDigitCh (c : Char) : Bool := 48 ≤ c.toNat && c.toNat ≤ 57

/-- Value of one hexadecimal digit (either case), as in `\uXXXX` escapes. -/
def hexVal (c : Char) : Option Nat :=
  if 48 ≤ c.toNat ∧ c.toNat ≤ 57 then some (c.toNat - 48)
  else if 97 ≤ c.toNat ∧ c.toNat ≤ 102 then some (c.toNat - 87)
  else if 65 ≤ c.toNat ∧ c.toNat ≤ 70 then some (c.toNat - 55)
  else none

/-- Combine four hexadecimal digit characters into their value. -/
def hex4val (c1 c2 c3 c4 : Char) : Option Nat :=
  match hexVal c1, hexVal c2, hexVal c3, hexVal c4 with
  | some h1, some h2, some h3, some h4 =>
    some (((h1 * 16 + h2) * 16 + h3) * 16 + h4)
  | _, _, _, _ => none

/-- Decode one escape sequence (the input begins after the backslash), with
the `json` module's rules: the shorthands, `\uXXXX` outside the surrogate
range, and a high surrogate escape completed by a low surrogate escape,
recombined into one code point.  Returns the decoded character and the rest
of the input. -/
def parseEscape : List Char → Option (Char × List Char)
  | [] => none
  | e :: r =>
    if e = '"' then some ('"', r)
    else if e = '\\' then some ('\\', r)
    else if e = '/' then some ('/', r)
    else if e = 'b' then some (Char.ofNat 8, r)
    else if e = 'f' then some (Char.ofNat 12, r)
    else if e = 'n' then some ('\n', r)
    else if e = 'r' then some ('\r', r)
    else if e = 't' then some ('\t', r)
    else if e = 'u' then
      match r with
      | c1 :: c2 :: c3 :: c4 :: r2 =>
        match hex4val c1 c2 c3 c4 with
        | some n =>
          if n < 55296 ∨ 57343 < n then some (Char.ofNat n, r2)
          else if n ≤ 56319 then
            match r2 with
            | b1 :: b2 :: d1 :: d2 :: d3 :: d4 :: r3 =>
              if b1 = '\\' ∧ b2 = 'u' then
                match hex4val d1 d2 d3 d4 with
                | some m =>
                  if 56320 ≤ m ∧ m ≤ 57343 then
                    some (Char.ofNat (65536 + (n - 55296) * 1024 + (m - 56320)), r3)
                  else none
                | none => none
              else none
            | _ => none
          else none
        | none => none
      | _ => none
    else none

/-- The character-by-character loop of string parsing, on fuel (one unit per
decoded character) so that the definition is structural: a quote ends the
body, a backslash starts an escape, raw control characters are rejected
(strict mode), anything else is taken as-is. -/
def parseStrLoop : Nat → List Char → Option (List Char × List Char)
  | 0, _ => none
  | fuel + 1, cs =>
    match cs with
    | [] => none
    | c :: rest =>
      if c = '"' then some ([], rest)
      else if c = '\\' then
        match parseEscape rest with
        | some (d, r) =>
          match parseStrLoop fuel r with
          | some (s, r2) => some (d :: s, r2)
          | none => none
        | none => none
      else if c.toNat < 32 then none
      else
        match parseStrLoop fuel rest with
        | some (s, r2) => some (c :: s, r2)
        | none => none

/-- Parse a JSON string body up to and including the closing quote,
returning the decoded content and the input after the closing quote.  The
fuel bound of one more than the input length always suffices, as every
decoded character consumes at least one input character. -/
def parseStringBody (cs : List Char) : Option (List Char × List Char) :=
  parseStrLoop (cs.length + 1) cs

/-- Consume a run of decimal digits, accumulating their value. -/
def parseDigits : List Char → Nat → Nat × List Char
  | [], acc => (acc, [])
  | c :: rest, acc =>
    if isDigitCh c then parseDigits rest (acc * 10 + (c.toNat - 48))
    else (acc, c :: rest)

/-- Parse the integer part of a JSON number: `0`, or a nonzero leading digit
followed by any digits (the `json` module's `(?:0|[1-9]\d*)`). -/
def parseNat : List Char → Option (Nat × List Char)
  | [] => none
  | c :: rest =>
    if c = '0' then some (0, rest)
    else if isDigitCh c then some (parseDigits rest (c.toNat - 48))
    else none

/-- Does a fraction or exponent follow?  The model rejects such numbers: the
`json` module parses them as floats, which are outside the model. -/
def floatFollow : List Char → Bool
  | [] => false
  | c :: _ => c = '.' || c = 'e' || c = 'E'

/-- Parse a JSON integer, with optional leading minus. -/
def parseNumber (cs : List Char) : Option (Int × List Char) :=
  match cs with
  | [] => none
  | c :: rest =>
    if c = '-' then
      match parseNat rest with
      | some (n, r) => if floatFollow r then none else some (-(n : Int), r)
      | none => none
    else
      match parseNat cs with
      | some (n, r) => if floatFollow r then none else some ((n : Int), r)
      | none => none

/-- Expect a literal run of characters, returning the remainder. -/
def expectChars : List Char → List Char → Option (List Char)
  | [], cs => some cs
  | _ :: _, [] => none
  | e :: es, c :: cs => if c = e then expectChars es cs else none

/-- Parsing mode of the single fuel-structural parser function: a value, the
elements of a non-empty array, or the members of a non-empty object. -/
inductive PMode where
  | val | elems | members

/-- Result of one parsing mode. -/
inductive PRes where
  | v (x : JValue)
  | es (xs : List JValue)
  | ms (fs : List (String × JValue))

/-- The recursive core of the `json.loads` model.  One function over all
three modes, recursing on fuel so that it is structurally recursive and
kernel-computable.  `elems` is entered after `[` + whitespace when the next
character is not `]`; it parses `value (ws , ws value)* ws ]`.  `members` is
analogous for objects. -/
def parseStep : Nat → PMode → List Char → Option (PRes × List Char)
  | 0, _, _ => none
  | fuel + 1, PMode.val, cs =>
    match cs with
    | [] => none
    | c :: rest =>
      if c = 'n' then
        match expectChars ['u', 'l', 'l'] rest with
        | some r => some (.v .null, r)
        | none => none
      else if c = 't' then
        match expectChars ['r', 'u', 'e'] rest with
        | some r => some (.v (.bool true), r)
        | none => none
      else if c = 'f' then
        match expectChars ['a', 'l', 's', 'e'] rest with
        | some r => some (.v (.bool false), r)
        | none => none
      else if c = '"' then
        match parseStringBody rest with
        | some (s, r) => some (.v (.str (String.mk s)), r)
        | none => none
      else if c = '[' then
        let r1 := skipWs rest
        if r1.head? = some ']' then some (.v (.arr []), r1.tail)
        else
          match parseStep fuel PMode.elems r1 with
          | some (.es xs, r2) => some (.v (.arr xs), r2)
          | _ => none
      else if c = lbrace then
        let r1 := skipWs rest
        if r1.head? = some rbrace then some (.v (.obj []), r1.tail)
        else
          match parseStep fuel PMode.members r1 with
          | some (.ms fs, r2) => some (.v (.obj fs), r2)
          | _ => none
      else
        match parseNumber (c :: rest) with
        | some (i, r) => some (.v (.int i), r)
        | none => none
  | fuel + 1, PMode.elems, cs =>
    match parseStep fuel PMode.val cs with
    | some (.v x, r) =>
      let r1 := skipWs r
      if r1.head? = some ',' then
        match parseStep fuel PMode.elems (skipWs r1.tail) with
        | some (.es xs, r3) => some (.es (x :: xs), r3)
        | _ => none
      else if r1.head? = some ']' then some (.es [x], r1.tail)
      else none
    | _ => none
  | fuel + 1, PMode.members, cs =>
    match cs with
    | c :: rest =>
      if c = '"' then
        match parseStringBody rest with
        | some (kcs, r1) =>
          let r2 := skipWs r1
          if r2.head? = some ':' then
            match parseStep fuel PMode.val (skipWs r2.tail) with
            | some (.v x, r3) =>
              let r4 := skipWs r3
              if r4.head? = some ',' then
                match parseStep fuel PMode.members (skipWs r4.tail) with
                | some (.ms fs, r5) => some (.ms ((String.mk kcs, x) :: fs), r5)
                | _ => none
              else if r4.head? = some rbrace then
                some (.ms [(String.mk kcs, x)], r4.tail)
              else none
            | _ => none
          else none
        | none => none
      else none
    | [] => none

/-- Model of `json.loads`, the decoder used by
`WebsocketClient.unpack_data`: skip leading whitespace, parse one value,
require only whitespace to follow.  Failures are the `ValueError`
(`json.JSONDecodeError`) cases of the `json` module. -/
def loads (s : String) : Except String JValue :=
  match parseStep ((skipWs s.data).length + 1) PMode.val (skipWs s.data) with
  | some (PRes.v v, rest) =>
    if skipWs rest = [] then .ok v else .error "Extra data"
  | _ => .error "Expecting value"

/-- Model of `WebsocketClient.unpack_data`: `json.loads` on the frame text. -/
def unpack_data (data : String) : Except String JValue := loads data

/-- Python string slicing `text[:n]` (by code points, as Python `str`). -/
def pyTake (s : String) (n : Nat) : String := String.mk (s.data.take n)

/-- Python `repr` of one string character for the chosen quote `q`. -/
def pyReprChar (q : Char) (c : Char) : List Char :=
  if c = '\\' then ['\\', '\\']
  else if c = q then ['\\', q]
  else if c = '\n' then ['\\', 'n']
  else if c = '\r' then ['\\', 'r']
  else if c = '\t' then ['\\', 't']
  else if c.toNat < 32 ∨ c.toNat = 127 then
    '\\' :: 'x' :: [hexDigitCh (c.toNat / 16 % 16), hexDigitCh (c.toNat % 16)]
  else [c]

/-- Body of a Python string `repr`. -/
def pyReprStrBody (q : Char) : List Char → List Char
  | [] => []
  | c :: cs => pyReprChar q c ++ pyReprStrBody q cs

/-- Python `repr` of a string: single quotes, unless the string contains a
single quote and no double quote. -/
def pyReprStr (s : String) : String :=
  let q : Char :=
    if s.data.contains (Char.ofNat 39) ∧ ¬ s.data.contains '"' then '"'
    else Char.ofNat 39
  String.mk (q :: pyReprStrBody q s.data ++ [q])

mutual
/-- Python `repr` of a decoded JSON value, as nested inside containers:
dicts as `\x7b'k': v\x7d`, lists as `[a, b]`, `None`/`True`/`False`,
decimal integers, and single-quoted strings.  Non-ASCII printable characters
are kept literal (the model does not reproduce `repr`'s Unicode
category-based escaping for them). -/
def pyRepr : JValue → String
  | .null => "None"
  | .bool true => "True"
  | .bool false => "False"
  | .int i => String.mk (intChars i)
  | .str s => pyReprStr s
  | .arr xs => "[" ++ String.mk (pyReprEC xs) ++ "]"
  | .obj fs => String.mk (lbrace :: pyReprMC fs ++ [rbrace])
/-- List elements of a `repr`, joined by `", "`. -/
def pyReprEC : List JValue → List Char
  | [] => []
  | x :: xs => (pyRepr x).data ++ (if xs.isEmpty then [] else ',' :: ' ' :: pyReprEC xs)
/-- Dict members of a `repr`, `'key': value`, joined by `", "`. -/
def pyReprMC : List (String × JValue) → List Char
  | [] => []
  | (k, v) :: fs =>
    (pyReprStr k).data ++ ':' :: ' ' ::
      ((pyRepr v).data ++ (if fs.isEmpty then [] else ',' :: ' ' :: pyReprMC fs))
end

/-- Python `str` of a decoded JSON value, as `%s` formatting renders it:
a string renders as itself, everything else as its `repr`. -/
def pyStr : JValue → String
  | .str s => s
  | v => pyRepr v

/-- `"None"` for an absent value, the string itself otherwise, as Python's
`"...{}...".format` renders `None` and `str` arguments. -/
def formatOpt : Option String → String
  | none => "None"
  | some s => s

/-- The attributes of a `WebsocketClient` instance that the modelled methods
read or write.  `proxy = none` models the `proxy` attribute not having been
assigned (reading it raises `AttributeError`); the event-loop, session,
socket and thread handles are concurrency plumbing and are not modelled. -/
structure ClientState where
  host : Option String
  proxy : Option String
  ping_interval : Nat
  header : List (String × String)
  logger : Bool
  last_sent_text : Option String
  last_received_text : Option String

/-- The state `WebsocketClient.__init__` establishes: no host, the `proxy`
attribute never assigned, a 60-second ping interval, empty headers, no
logger, and both diagnostics slots unset. -/
def initState : ClientState :=
  { host := none, proxy := none, ping_interval := 60, header := [],
    logger := false, last_sent_text := none, last_received_text := none }

/-- Model of `WebsocketClient.init`: store the host and ping interval,
enable the log sink when a log path is given, keep a truthy header mapping,
and assign the `proxy` attribute only when both proxy host and proxy port
are truthy (non-empty string, non-zero integer). -/
def clientInit (st : ClientState) (host : String) (proxy_host : String)
    (proxy_port : Int) (ping_interval : Nat)
    (header : Option (List (String × String))) (log_path : Option String) :
    ClientState :=
  let st1 := { st with
    host := some host,
    ping_interval := ping_interval,
    logger := if log_path.isSome then true else st.logger }
  let st2 :=
    match header with
    | some h => if h.isEmpty then st1 else { st1 with header := h }
    | none => st1
  if proxy_host ≠ "" ∧ proxy_port ≠ 0 then
    let url := "http://" ++ proxy_host ++ ":" ++ String.mk (intChars proxy_port)
    { st2 with proxy := some url }
  else st2

/-- Model of `WebsocketClient._record_last_sent_text`:
`self._last_sent_text = text[:1000]`. -/
def _record_last_sent_text (st : ClientState) (text : String) : ClientState :=
  { st with last_sent_text := some (pyTake text 1000) }

/-- Model of `WebsocketClient._record_last_received_text`:
`self._last_received_text = text[:1000]`. -/
def _record_last_received_text (st : ClientState) (text : String) : ClientState :=
  { st with last_received_text := some (pyTake text 1000) }

/-- Observable actions of the modelled client, in program order. -/
inductive WEvent where
  | wsConnect
  | onConnected
  | printed (s : String)
  | recordRecv (text : String)
  | logDebug (msg : String)
  | onPacket (data : JValue)
  | onDisconnected
  | recordSent (text : String)
  | scheduleSend (text : String)
  | stderrWrite (s : String)
  | excepthookCalled

/-- Exceptions that can propagate out of the modelled code paths. -/
inductive PyExc where
  | attributeError (name : String)
  | connectError
  | valueError (msg : String)
  | transportError

/-- Model of `WebsocketClient._log`: emit a debug record only when a logger
is configured. -/
def _log (logger : Bool) (msg : String) : List WEvent :=
  if logger then [WEvent.logDebug msg] else []

/-- Model of `WebsocketClient.send_packet`: encode with `json.dumps`, record
the wire text in the diagnostics buffer, schedule the socket write on the
worker loop, then log `sent text: %s` with the wire text.  Returns the
emitted actions in program order and the updated state. -/
def send_packet (st : ClientState) (packet : JValue) :
    List WEvent × ClientState :=
  let text := dumps packet
  let st1 := _record_last_sent_text st text
  ([WEvent.recordSent text, WEvent.scheduleSend text] ++
     _log st.logger ("sent text: " ++ text),
   st1)

/-- Model of `WebsocketClient.exception_detail`: the timestamped report with
the fault kind, both diagnostics slots, and the formatted trace.  The
renderings of `datetime.now().isoformat()`, of the exception type and of
`traceback.format_exception` are passed in as text. -/
def exception_detail (st : ClientState) (excType : String) (tbText : String)
    (now : String) : String :=
  "[" ++ now ++ "]: Unhandled WebSocket Error:" ++ excType ++ "\n" ++
  "LastSentText:\n" ++ formatOpt st.last_sent_text ++ "\n" ++
  "LastReceivedText:\n" ++ formatOpt st.last_received_text ++ "\n" ++
  "Exception trace: \n" ++ tbText

/-- Model of `WebsocketClient.on_error` (default behaviour): write the
`exception_detail` report to the process error stream, then hand the fault
to `sys.excepthook`. -/
def on_error (st : ClientState) (excType : String) (tbText : String)
    (now : String) : List WEvent :=
  [WEvent.stderrWrite (exception_detail st excType tbText now),
   WEvent.excepthookCalled]

/-- Environment of one `_run` invocation: whether `ws_connect` succeeds, the
text frames the socket yields, and whether the inbound iteration ends in a
transport fault instead of a normal close. -/
structure RunEnv where
  connectOk : Bool
  frames : List String
  streamError : Bool

/-- The `async for` body of `WebsocketClient._run`, frame by frame: print
`recv <text>`, record the frame in the diagnostics buffer, decode it with
`unpack_data`; on `ValueError` print the parse-failure notice and re-raise
(ending the loop); on success log `recv data: %s` with the decoded packet
and dispatch `on_packet`. -/
def processFrames (logger : Bool) (st : ClientState) :
    List String → List WEvent × ClientState × Option PyExc
  | [] => ([], st, none)
  | text :: rest =>
    let st1 := _record_last_received_text st text
    let pre := [WEvent.printed ("recv " ++ text), WEvent.recordRecv text]
    match unpack_data text with
    | .error e =>
      (pre ++ [WEvent.printed ("websocket unable to parse data: " ++ text)],
       st1, some (.valueError e))
    | .ok data =>
      let out := processFrames logger st1 rest
      (pre ++ _log logger ("recv data: " ++ pyStr data) ++
         [WEvent.onPacket data] ++ out.1,
       out.2)

/-- Model of the `WebsocketClient._run` coroutine: evaluate `self.proxy`
(raising `AttributeError` when `init` never assigned it), connect, fire
`on_connected`, then iterate the inbound frames.  The returned exception is
what propagates out of the coroutine into the task created by
`asyncio.run_coroutine_threadsafe`; no handler in the client intercepts it,
and neither `on_disconnected` nor `on_error` is invoked on any path. -/
def runSession (st : ClientState) (env : RunEnv) :
    List WEvent × ClientState × Option PyExc :=
  match st.proxy with
  | none => ([], st, some (.attributeError "proxy"))
  | some _ =>
    if env.connectOk then
      let out := processFrames st.logger st env.frames
      ([WEvent.wsConnect, WEvent.onConnected] ++ out.1, out.2.1,
       match out.2.2 with
       | some e => some e
       | none => if env.streamError then some .transportError else none)
    else ([WEvent.wsConnect], st, some .connectError)

/-- Does `unpack_data` succeed on this text? -/
def decodeOk (s : String) : Bool :=
  match unpack_data s with
  | .ok _ => true
  | .error _ => false

/-- Is this event an `on_packet` dispatch? -/
def isOnPacketEv : WEvent → Bool
  | .onPacket _ => true
  | _ => false

/-- Is this event the firing of `on_connected`? -/
def isOnConnectedEv : WEvent → Bool
  | .onConnected => true
  | _ => false

/-- Is this event the firing of `on_disconnected`? -/
def isOnDisconnectedEv : WEvent → Bool
  | .onDisconnected => true
  | _ => false

/-- Is this event an effect of the default `on_error` (an error-stream write
or the hand-off to `sys.excepthook`)? -/
def isOnErrorEffect : WEvent → Bool
  | .stderrWrite _ => true
  | .excepthookCalled => true
  | _ => false

/-- Is this event a debug log record with the given message? -/
def isLogDebugEv (msg : String) : WEvent → Bool
  | .logDebug m => m = msg
  | _ => false

/-- The two-character string escapes of the JSON grammar and the characters
they denote. -/
def escPairs (e c : Char) : Prop :=
  (e = '"' ∧ c = '"') ∨ (e = '\\' ∧ c = '\\') ∨ (e = '/' ∧ c = '/') ∨
  (e = 'b' ∧ c = Char.ofNat 8) ∨ (e = 'f' ∧ c = Char.ofNat 12) ∨
  (e = 'n' ∧ c = '\n') ∨ (e = 'r' ∧ c = '\r') ∨ (e = 't' ∧ c = '\t')

/-- A run of JSON whitespace. -/
def wsOnly (l : List Char) : Prop := ∀ c ∈ l, isWsCh c = true

/-- Grammar of JSON string bodies: `GStrBody content text` holds when `text`
(the characters between the quotes) is a well-formed string body denoting
`content`.  Unescaped characters are `0x20` and above other than `"` and
`\`; escapes are the shorthands, `\uXXXX` outside the surrogate range, and
surrogate pairs recombined into one code point. -/
inductive GStrBody : List Char → List Char → Prop where
  | nil : GStrBody [] []
  | raw (c : Char) (cs pre : List Char) : 32 ≤ c.toNat → c ≠ '"' → c ≠ '\\' →
      GStrBody cs pre → GStrBody (c :: cs) (c :: pre)
  | esc (e c : Char) (cs pre : List Char) : escPairs e c →
      GStrBody cs pre → GStrBody (c :: cs) ('\\' :: e :: pre)
  | uni (c1 c2 c3 c4 : Char) (n : Nat) (cs pre : List Char) :
      hex4val c1 c2 c3 c4 = some n → (n < 55296 ∨ 57343 < n) →
      GStrBody cs pre →
      GStrBody (Char.ofNat n :: cs) ('\\' :: 'u' :: c1 :: c2 :: c3 :: c4 :: pre)
  | pair (c1 c2 c3 c4 d1 d2 d3 d4 : Char) (n m : Nat) (cs pre : List Char) :
      hex4val c1 c2 c3 c4 = some n → 55296 ≤ n → n ≤ 56319 →
      hex4val d1 d2 d3 d4 = some m → 56320 ≤ m → m ≤ 57343 →
      GStrBody cs pre →
      GStrBody (Char.ofNat (65536 + (n - 55296) * 1024 + (m - 56320)) :: cs)
        ('\\' :: 'u' :: c1 :: c2 :: c3 :: c4 :: '\\' :: 'u' :: d1 :: d2 :: d3 :: d4 :: pre)

/-- All characters are decimal digits. -/
def allDigits (ds : List Char) : Prop := ∀ c ∈ ds, isDigitCh c = true

/-- Decimal value of a digit run. -/
def digitsVal (ds : List Char) : Nat :=
  ds.foldl (fun a c => a * 10 + (c.toNat - 48)) 0

/-- Grammar of unsigned JSON integer parts: `0`, or a nonzero digit followed
by digits, denoting `n`. -/
def GNatTxt (n : Nat) (pre : List Char) : Prop :=
  (pre = ['0'] ∧ n = 0) ∨
  (∃ d ds, pre = d :: ds ∧ isDigitCh d = true ∧ d ≠ '0' ∧ allDigits ds ∧
    n = digitsVal pre)

/-- Grammar of JSON integer numbers (an optional minus sign and an integer
part), denoting `i`. -/
def GIntTxt (i : Int) (pre : List Char) : Prop :=
  ∃ n p, GNatTxt n p ∧
    ((pre = p ∧ i = (n : Int)) ∨ (pre = '-' :: p ∧ i = -(n : Int)))

mutual
/-- Grammar of JSON values: `GVal v text` holds when `text` is a well-formed
JSON rendering of `v` (whitespace allowed between tokens, integer numbers
only — see the module comment). -/
inductive GVal : JValue → List Char → Prop where
  | gnull : GVal JValue.null ['n', 'u', 'l', 'l']
  | gtrue : GVal (JValue.bool true) ['t', 'r', 'u', 'e']
  | gfalse : GVal (JValue.bool false) ['f', 'a', 'l', 's', 'e']
  | gint (i : Int) (pre : List Char) : GIntTxt i pre → GVal (JValue.int i) pre
  | gstr (s : String) (body : List Char) : GStrBody s.data body →
      GVal (JValue.str s) ('"' :: body ++ ['"'])
  | garrNil (w : List Char) : wsOnly w → GVal (JValue.arr []) ('[' :: w ++ [']'])
  | garr (xs : List JValue) (w pre : List Char) : wsOnly w → GElems xs pre →
      GVal (JValue.arr xs) ('[' :: w ++ pre)
  | gobjNil (w : List Char) : wsOnly w →
      GVal (JValue.obj []) (lbrace :: w ++ [rbrace])
  | gobj (fs : List (String × JValue)) (w pre : List Char) : wsOnly w →
      GMembers fs pre → GVal (JValue.obj fs) (lbrace :: w ++ pre)
/-- Grammar of the rest of a non-empty array after `[` and leading
whitespace: `value ws , ws ... ws ]`. -/
inductive GElems : List JValue → List Char → Prop where
  | last (x : JValue) (vpre w : List Char) : GVal x vpre → wsOnly w →
      GElems [x] (vpre ++ w ++ [']'])
  | cons (x : JValue) (xs : List JValue) (vpre w w2 rest : List Char) :
      GVal x vpre → wsOnly w → wsOnly w2 → GElems xs rest →
      GElems (x :: xs) (vpre ++ w ++ ',' :: (w2 ++ rest))
/-- Grammar of the rest of a non-empty object after `\x7b` and leading
whitespace: `"key" ws : ws value ws , ws ... ws \x7d`. -/
inductive GMembers : List (String × JValue) → List Char → Prop where
  | last (k : String) (v : JValue) (kbody w1 w2 vpre w3 : List Char) :
      GStrBody k.data kbody → wsOnly w1 → wsOnly w2 → GVal v vpre → wsOnly w3 →
      GMembers [(k, v)]
        ('"' :: kbody ++ ['"'] ++ w1 ++ ':' :: (w2 ++ vpre ++ w3 ++ [rbrace]))
  | cons (k : String) (v : JValue) (fs : List (String × JValue))
      (kbody w1 w2 vpre w3 w4 rest : List Char) :
      GStrBody k.data kbody → wsOnly w1 → wsOnly w2 → GVal v vpre → wsOnly w3 →
      wsOnly w4 → GMembers fs rest →
      GMembers ((k, v) :: fs)
        ('"' :: kbody ++ ['"'] ++ w1 ++ ':' :: (w2 ++ vpre ++ w3 ++ ',' :: (w4 ++ rest)))
end

/-- `text` is a complete JSON document denoting `v`: optional surrounding
whitespace around one well-formed JSON value. -/
def JsonTextFor (v : JValue) (text : List Char) : Prop :=
  ∃ w1 pre w2, text = w1 ++ pre ++ w2 ∧ wsOnly w1 ∧ wsOnly w2 ∧ GVal v pre

mutual
/-- Fuel needed by `parseStep` to parse the rendering of a value: 1 plus the
fuel of the element/member modes it enters. -/
def wVal : JValue → Nat
  | .arr xs => 1 + wElems xs
  | .obj fs => 1 + wMembers fs
  | _ => 1
/-- Fuel needed by the `elems` mode for these elements. -/
def wElems : List JValue → Nat
  | [] => 0
  | x :: xs => 1 + wVal x + wElems xs
/-- Fuel needed by the `members` mode for these members. -/
def wMembers : List (String × JValue) → Nat
  | [] => 0
  | (_, v) :: fs => 1 + wVal v + wMembers fs
end

/-- The input does not begin with a decimal digit. -/
def nonDigitHead : List Char → Prop
  | [] => True
  | c :: _ => isDigitCh c = false

/-- The input may legitimately follow a rendered integer: it starts with
neither a digit nor a fraction/exponent marker. -/
def numBoundary (rest : List Char) : Prop :=
  nonDigitHead rest ∧ floatFollow rest = false

/-- `numBoundary` is only needed after integers. -/
def numBoundaryV : JValue → List Char → Prop
  | .int _, rest => numBoundary rest
  | _, _ => True

/-- The characters a rendered JSON value can start with. -/
def headOkJson (c : Char) : Prop :=
  c = 'n' ∨ c = 't' ∨ c = 'f' ∨ c = '"' ∨ c = '[' ∨ c = lbrace ∨
  c = '-' ∨ isDigitCh c = true

theorem toNat_ofNat_valid (m : Nat) (h : m.isValidChar) : (Char.ofNat m).toNat = m := by
  simp [Char.ofNat, h, Char.ofNatAux, Char.toNat, UInt32.toNat]

theorem toNat_ofNat_small (m : Nat) (h : m < 55296) : (Char.ofNat m).toNat = m :=
  toNat_ofNat_valid m (Or.inl h)

theorem char_valid_range (c : Char) :
    c.toNat < 55296 ∨ (57343 < c.toNat ∧ c.toNat < 1114112) := by
  have h := c.valid
  simp only [Char.toNat]
  rcases h with h | h
  · left; omega
  · right; omega

theorem char_toNat_inj (c d : Char) (h : c.toNat = d.toNat) : c = d := by
  have hc := Char.ofNat_toNat c
  have hd := Char.ofNat_toNat d
  rw [← hc, ← hd, h]

theorem hex4_recomb (n : Nat) (h : n < 65536) :
    ((n / 4096 % 16 * 16 + n / 256 % 16) * 16 + n / 16 % 16) * 16 + n % 16 = n := by
  omega

theorem hexVal_hexDigitCh (d : Nat) (h : d < 16) :
    hexVal (hexDigitCh d) = some d := by
  unfold hexDigitCh
  split
  · have e : (Char.ofNat (48 + d)).toNat = 48 + d := toNat_ofNat_small _ (by omega)
    unfold hexVal
    rw [e, if_pos (by omega)]
    congr 1
    omega
  · have e : (Char.ofNat (87 + d)).toNat = 87 + d := toNat_ofNat_small _ (by omega)
    unfold hexVal
    rw [e, if_neg (by omega), if_pos (by omega)]
    congr 1
    omega

theorem isDigitCh_ofNat (n : Nat) (h : n < 10) :
    isDigitCh (Char.ofNat (48 + n)) = true := by
  have e : (Char.ofNat (48 + n)).toNat = 48 + n := toNat_ofNat_small _ (by omega)
  simp [isDigitCh, e]
  omega

theorem digit_ofNat_ne_zero (n : Nat) (h1 : 1 ≤ n) (h10 : n < 10) :
    Char.ofNat (48 + n) ≠ '0' := by
  intro he
  have e : (Char.ofNat (48 + n)).toNat = 48 + n := toNat_ofNat_small _ (by omega)
  rw [he] at e
  have : ('0').toNat = 48 := rfl
  omega

theorem digitsGo_spec : ∀ f n, 1 ≤ n → n ≤ f →
    ∃ d ds, digitsGo f n = d :: ds ∧ isDigitCh d = true ∧ d ≠ '0' ∧
      allDigits (d :: ds) ∧
      ∀ acc : Nat, List.foldl (fun a c => a * 10 + (c.toNat - 48)) acc (d :: ds) =
        acc * 10 ^ (d :: ds).length + n := by
  intro f
  induction f with
  | zero => intro n h1 h2; omega
  | succ f ih =>
    intro n h1 h2
    by_cases h10 : n < 10
    · refine ⟨Char.ofNat (48 + n), [], ?_, isDigitCh_ofNat n h10,
        digit_ofNat_ne_zero n h1 h10, ?_, ?_⟩
      · simp [digitsGo, h10]
      · intro c hc
        simp only [List.mem_singleton] at hc
        rw [hc]
        exact isDigitCh_ofNat n h10
      · intro acc
        have e : (Char.ofNat (48 + n)).toNat = 48 + n := toNat_ofNat_small _ (by omega)
        simp only [List.foldl_cons, List.foldl_nil, List.length_cons,
          List.length_nil, e, pow_one, Nat.zero_add, pow_zero]
        omega
    · have hd1 : 1 ≤ n / 10 := by omega
      have hd2 : n / 10 ≤ f := by omega
      obtain ⟨d, ds, hgo, hdig, hne, hall, hfold⟩ := ih (n / 10) hd1 hd2
      have hlast : isDigitCh (Char.ofNat (48 + n % 10)) = true :=
        isDigitCh_ofNat _ (by omega)
      refine ⟨d, ds ++ [Char.ofNat (48 + n % 10)], ?_, hdig, hne, ?_, ?_⟩
      · simp [digitsGo, h10, hgo]
      · intro c hc
        rcases List.mem_cons.mp hc with hc | hc
        · rw [hc]; exact hdig
        · rcases List.mem_append.mp hc with hc | hc
          · exact hall c (List.mem_cons_of_mem _ hc)
          · simp only [List.mem_singleton] at hc
            rw [hc]; exact hlast
      · intro acc
        have e : (Char.ofNat (48 + n % 10)).toNat = 48 + n % 10 :=
          toNat_ofNat_small _ (by omega)
        have hstep :
            List.foldl (fun a c => a * 10 + (c.toNat - 48)) acc
              (d :: (ds ++ [Char.ofNat (48 + n % 10)])) =
            (List.foldl (fun a c => a * 10 + (c.toNat - 48)) acc (d :: ds)) * 10 +
              (n % 10) := by
          rw [show d :: (ds ++ [Char.ofNat (48 + n % 10)]) =
            (d :: ds) ++ [Char.ofNat (48 + n % 10)] from rfl]
          rw [List.foldl_append]
          simp only [List.foldl_cons, List.foldl_nil, e]
          omega
        rw [hstep, hfold acc]
        have hlen : (d :: (ds ++ [Char.ofNat (48 + n % 10)])).length =
            (d :: ds).length + 1 := by simp
        rw [hlen, pow_succ]
        have hmod : n / 10 * 10 + n % 10 = n := by omega
        calc (acc * 10 ^ (d :: ds).length + n / 10) * 10 + n % 10 =
            acc * (10 ^ (d :: ds).length * 10) + (n / 10 * 10 + n % 10) := by ring
          _ = acc * (10 ^ (d :: ds).length * 10) + n := by rw [hmod]

theorem parseDigits_run : ∀ ds rest acc, allDigits ds → nonDigitHead rest →
    parseDigits (ds ++ rest) acc =
      (List.foldl (fun a c => a * 10 + (c.toNat - 48)) acc ds, rest) := by
  intro ds
  induction ds with
  | nil =>
    intro rest acc _ hrest
    cases rest with
    | nil => simp [parseDigits]
    | cons c t =>
      simp only [nonDigitHead] at hrest
      simp [parseDigits, hrest]
  | cons c ds ih =>
    intro rest acc hall hrest
    have hc : isDigitCh c = true := hall c (List.mem_cons_self c ds)
    have hall' : allDigits ds := fun x hx => hall x (List.mem_cons_of_mem _ hx)
    have hstep : parseDigits ((c :: ds) ++ rest) acc =
        parseDigits (ds ++ rest) (acc * 10 + (c.toNat - 48)) := by
      simp [parseDigits, hc]
    rw [hstep, ih rest _ hall' hrest]
    simp

theorem parseNat_natDigits (n : Nat) (rest : List Char) (h : nonDigitHead rest) :
    parseNat (natDigits n ++ rest) = some (n, rest) := by
  by_cases h0 : n = 0
  · subst h0
    simp [natDigits, parseNat]
  · have h1 : 1 ≤ n := by omega
    obtain ⟨d, ds, hgo, hdig, hne, hall, hfold⟩ := digitsGo_spec n n h1 (le_refl n)
    have hnd : natDigits n = d :: ds := by
      rw [natDigits, if_neg h0, hgo]
    rw [hnd]
    have hall' : allDigits ds := fun x hx => hall x (List.mem_cons_of_mem _ hx)
    have hstep : parseNat ((d :: ds) ++ rest) =
        some (parseDigits (ds ++ rest) (d.toNat - 48)) := by
      simp [parseNat, hne, hdig]
    rw [hstep, parseDigits_run ds rest _ hall' h]
    have hf0 := hfold 0
    simp only [List.foldl_cons, Nat.zero_mul, Nat.zero_add] at hf0
    rw [hf0]

theorem digit_ne_minus (c : Char) (h : isDigitCh c = true) : c ≠ '-' := by
  intro he
  simp only [isDigitCh, Bool.and_eq_true, decide_eq_true_eq] at h
  rw [he] at h
  have : ('-').toNat = 45 := rfl
  omega

theorem parseNumber_minus (l : List Char) :
    parseNumber ('-' :: l) =
      match parseNat l with
      | some (n, r) => if floatFollow r then none else some (-(n : Int), r)
      | none => none := rfl

theorem parseNumber_nonminus (c : Char) (l : List Char) (h : c ≠ '-') :
    parseNumber (c :: l) =
      match parseNat (c :: l) with
      | some (n, r) => if floatFollow r then none else some ((n : Int), r)
      | none => none := by
  simp [parseNumber, h]

theorem parseNumber_intChars (i : Int) (rest : List Char) (h : numBoundary rest) :
    parseNumber (intChars i ++ rest) = some (i, rest) := by
  obtain ⟨hnd, hff⟩ := h
  by_cases hneg : i < 0
  · have hshape : intChars i = '-' :: natDigits i.natAbs := by
      rw [intChars, if_pos hneg]
    rw [hshape, List.cons_append, parseNumber_minus,
      parseNat_natDigits _ _ hnd]
    simp only [hff, Bool.false_eq_true, if_false]
    have : -(i.natAbs : Int) = i := by omega
    rw [this]
  · have hshape : intChars i = natDigits i.natAbs := by
      rw [intChars, if_neg hneg]
    have habs : (i.natAbs : Int) = i := by omega
    by_cases h0 : i.natAbs = 0
    · have hd : natDigits i.natAbs = ['0'] := by rw [h0]; rfl
      rw [hshape, hd, List.cons_append, List.nil_append,
        parseNumber_nonminus '0' rest (by decide),
        show parseNat ('0' :: rest) = some (0, rest) from by simp [parseNat]]
      simp only [hff, Bool.false_eq_true, if_false]
      rw [show ((0 : Nat) : Int) = i from by omega]
    · have h1 : 1 ≤ i.natAbs := by omega
      obtain ⟨d, ds, hgo, hdig, hne, hall, hfold⟩ :=
        digitsGo_spec i.natAbs i.natAbs h1 (le_refl _)
      have hnd' : natDigits i.natAbs = d :: ds := by
        rw [natDigits, if_neg h0, hgo]
      have hpn : parseNat (natDigits i.natAbs ++ rest) = some (i.natAbs, rest) :=
        parseNat_natDigits _ _ hnd
      rw [hnd'] at hpn
      rw [hshape, hnd', List.cons_append,
        parseNumber_nonminus d _ (digit_ne_minus d hdig)]
      rw [List.cons_append] at hpn
      rw [hpn]
      simp only [hff, Bool.false_eq_true, if_false, habs]

theorem parseDigits_sound : ∀ cs acc n rest, parseDigits cs acc = (n, rest) →
    ∃ ds, cs = ds ++ rest ∧ allDigits ds ∧
      n = List.foldl (fun a c => a * 10 + (c.toNat - 48)) acc ds ∧
      nonDigitHead rest := by
  intro cs
  induction cs with
  | nil =>
    intro acc n rest h
    simp only [parseDigits] at h
    obtain ⟨h1, h2⟩ := Prod.mk.injEq .. ▸ h
    refine ⟨[], by simp [← h2], fun c hc => absurd hc (List.not_mem_nil c), by simp [h1], ?_⟩
    rw [← h2]; trivial
  | cons c t ih =>
    intro acc n rest h
    by_cases hc : isDigitCh c = true
    · have hstep : parseDigits (c :: t) acc =
          parseDigits t (acc * 10 + (c.toNat - 48)) := by simp [parseDigits, hc]
      rw [hstep] at h
      obtain ⟨ds, hcs, hall, hn, hnd⟩ := ih _ _ _ h
      refine ⟨c :: ds, by simp [hcs], ?_, by simp [hn], hnd⟩
      intro x hx
      rcases List.mem_cons.mp hx with hx | hx
      · rw [hx]; exact hc
      · exact hall x hx
    · have hb : isDigitCh c = false := by
        cases hcb : isDigitCh c
        · rfl
        · exact absurd hcb hc
      have hstep : parseDigits (c :: t) acc = (acc, c :: t) := by
        simp [parseDigits, hb]
      rw [hstep] at h
      obtain ⟨h1, h2⟩ := Prod.mk.injEq .. ▸ h
      refine ⟨[], by simp [← h2], fun x hx => absurd hx (List.not_mem_nil x),
        by simp [h1], ?_⟩
      rw [← h2]
      simpa [nonDigitHead] using hb

theorem parseNat_sound (cs : List Char) (n : Nat) (rest : List Char)
    (h : parseNat cs = some (n, rest)) :
    ∃ pre, cs = pre ++ rest ∧ GNatTxt n pre := by
  cases cs with
  | nil => simp [parseNat] at h
  | cons c t =>
    by_cases hc0 : c = '0'
    · subst hc0
      simp only [parseNat, reduceIte, Option.some.injEq, Prod.mk.injEq] at h
      obtain ⟨h1, h2⟩ := h
      exact ⟨['0'], by simp [h2], Or.inl ⟨rfl, h1.symm⟩⟩
    · by_cases hcd : isDigitCh c = true
      · have hstep : parseNat (c :: t) = some (parseDigits t (c.toNat - 48)) := by
          simp [parseNat, hc0, hcd]
        rw [hstep] at h
        have hpd : parseDigits t (c.toNat - 48) = (n, rest) := by
          cases hh : parseDigits t (c.toNat - 48)
          rw [hh] at h
          exact Option.some.inj h ▸ rfl
        obtain ⟨ds, hcs, hall, hn, _⟩ := parseDigits_sound t _ n rest hpd
        refine ⟨c :: ds, by simp [hcs], Or.inr ⟨c, ds, rfl, hcd, hc0, hall, ?_⟩⟩
        simp only [digitsVal, List.foldl_cons, Nat.zero_mul, Nat.zero_add]
        exact hn
      · have hb : isDigitCh c = false := by
          cases hcb : isDigitCh c
          · rfl
          · exact absurd hcb hcd
        simp [parseNat, hc0, hb] at h

theorem parseNumber_sound (cs : List Char) (i : Int) (rest : List Char)
    (h : parseNumber cs = some (i, rest)) :
    ∃ pre, cs = pre ++ rest ∧ GIntTxt i pre := by
  cases cs with
  | nil => simp [parseNumber] at h
  | cons c t =>
    by_cases hcm : c = '-'
    · subst hcm
      rw [parseNumber_minus] at h
      cases hpn : parseNat t with
      | none => rw [hpn] at h; simp at h
      | some p =>
        obtain ⟨n, r⟩ := p
        rw [hpn] at h
        by_cases hff : floatFollow r = true
        · simp [hff] at h
        · have hffb : floatFollow r = false := by
            cases hx : floatFollow r
            · rfl
            · exact absurd hx hff
          simp only [hffb, Bool.false_eq_true, if_false, Option.some.injEq,
            Prod.mk.injEq] at h
          obtain ⟨h1, h2⟩ := h
          obtain ⟨pre, hcs, hg⟩ := parseNat_sound t n r hpn
          exact ⟨'-' :: pre, by simp [hcs, h2],
            ⟨n, pre, hg, Or.inr ⟨rfl, h1.symm⟩⟩⟩
    · rw [parseNumber_nonminus c t hcm] at h
      cases hpn : parseNat (c :: t) with
      | none => rw [hpn] at h; simp at h
      | some p =>
        obtain ⟨n, r⟩ := p
        rw [hpn] at h
        by_cases hff : floatFollow r = true
        · simp [hff] at h
        · have hffb : floatFollow r = false := by
            cases hx : floatFollow r
            · rfl
            · exact absurd hx hff
          simp only [hffb, Bool.false_eq_true, if_false, Option.some.injEq,
            Prod.mk.injEq] at h
          obtain ⟨h1, h2⟩ := h
          obtain ⟨pre, hcs, hg⟩ := parseNat_sound (c :: t) n r hpn
          exact ⟨pre, by rw [hcs, h2], ⟨n, pre, hg, Or.inl ⟨rfl, h1.symm⟩⟩⟩

theorem skipWs_not_ws (c : Char) (t : List Char) (h : isWsCh c = false) :
    skipWs (c :: t) = c :: t := by
  simp [skipWs, h]

theorem skipWs_decomp (cs : List Char) :
    ∃ w, cs = w ++ skipWs cs ∧ wsOnly w := by
  induction cs with
  | nil => exact ⟨[], rfl, fun c hc => absurd hc (List.not_mem_nil c)⟩
  | cons c t ih =>
    by_cases hc : isWsCh c = true
    · obtain ⟨w, hw, hall⟩ := ih
      refine ⟨c :: w, ?_, ?_⟩
      · simp [skipWs, hc]
        exact hw
      · intro x hx
        rcases List.mem_cons.mp hx with hx | hx
        · rw [hx]; exact hc
        · exact hall x hx
    · have hb : isWsCh c = false := by
        cases hx : isWsCh c
        · rfl
        · exact absurd hx hc
      exact ⟨[], by rw [skipWs_not_ws c t hb]; rfl,
        fun x hx => absurd hx (List.not_mem_nil x)⟩

theorem skipWs_nil_wsOnly : ∀ cs, skipWs cs = [] → wsOnly cs := by
  intro cs
  induction cs with
  | nil => intro _ c hc; exact absurd hc (List.not_mem_nil c)
  | cons c t ih =>
    intro h
    by_cases hc : isWsCh c = true
    · simp only [skipWs, hc, if_pos] at h
      intro x hx
      rcases List.mem_cons.mp hx with hx | hx
      · rw [hx]; exact hc
      · exact ih h x hx
    · have hb : isWsCh c = false := by
        cases hx : isWsCh c
        · rfl
        · exact absurd hx hc
      rw [skipWs_not_ws c t hb] at h
      exact absurd h (List.cons_ne_nil c t)

theorem expectChars_self : ∀ es rest, expectChars es (es ++ rest) = some rest := by
  intro es
  induction es with
  | nil => intro rest; rfl
  | cons e es ih =>
    intro rest
    simp [expectChars, ih]

theorem expectChars_sound : ∀ es cs rest, expectChars es cs = some rest →
    cs = es ++ rest := by
  intro es
  induction es with
  | nil =>
    intro cs rest h
    simp only [expectChars] at h
    simp [Option.some.inj h]
  | cons e es ih =>
    intro cs rest h
    cases cs with
    | nil => simp [expectChars] at h
    | cons c t =>
      by_cases hc : c = e
      · subst hc
        simp only [expectChars, if_pos rfl] at h
        simp [ih t rest h]
      · simp [expectChars, hc] at h


theorem hex4val_intro (c1 c2 c3 c4 : Char) (h1 h2 h3 h4 : Nat)
    (e1 : hexVal c1 = some h1) (e2 : hexVal c2 = some h2)
    (e3 : hexVal c3 = some h3) (e4 : hexVal c4 = some h4) :
    hex4val c1 c2 c3 c4 = some (((h1 * 16 + h2) * 16 + h3) * 16 + h4) := by
  simp [hex4val, e1, e2, e3, e4]

theorem hex4_hex4val (n : Nat) (h : n < 65536) :
    hex4val (hexDigitCh (n / 4096 % 16)) (hexDigitCh (n / 256 % 16))
      (hexDigitCh (n / 16 % 16)) (hexDigitCh (n % 16)) = some n := by
  rw [hex4val_intro _ _ _ _ _ _ _ _
    (hexVal_hexDigitCh _ (by omega)) (hexVal_hexDigitCh _ (by omega))
    (hexVal_hexDigitCh _ (by omega)) (hexVal_hexDigitCh _ (by omega))]
  rw [hex4_recomb n h]

theorem pe_u_norm (c1 c2 c3 c4 : Char) (n : Nat) (r2 : List Char)
    (hn : hex4val c1 c2 c3 c4 = some n)
    (hrange : n < 55296 ∨ 57343 < n) :
    parseEscape ('u' :: c1 :: c2 :: c3 :: c4 :: r2) = some (Char.ofNat n, r2) := by
  simp only [parseEscape]
  rw [if_neg (by decide : ¬ (('u' : Char) = '"')),
    if_neg (by decide : ¬ (('u' : Char) = '\\')),
    if_neg (by decide : ¬ (('u' : Char) = '/')),
    if_neg (by decide : ¬ (('u' : Char) = 'b')),
    if_neg (by decide : ¬ (('u' : Char) = 'f')),
    if_neg (by decide : ¬ (('u' : Char) = 'n')),
    if_neg (by decide : ¬ (('u' : Char) = 'r')),
    if_neg (by decide : ¬ (('u' : Char) = 't')),
    if_pos trivial, hn]
  dsimp only
  rw [if_pos hrange]

theorem pe_u_pair (c1 c2 c3 c4 d1 d2 d3 d4 : Char) (n m : Nat) (r3 : List Char)
    (hn : hex4val c1 c2 c3 c4 = some n)
    (hhi1 : 55296 ≤ n) (hhi2 : n ≤ 56319)
    (hm : hex4val d1 d2 d3 d4 = some m)
    (hlo1 : 56320 ≤ m) (hlo2 : m ≤ 57343) :
    parseEscape ('u' :: c1 :: c2 :: c3 :: c4 :: '\\' :: 'u' :: d1 :: d2 :: d3 :: d4 :: r3) =
      some (Char.ofNat (65536 + (n - 55296) * 1024 + (m - 56320)), r3) := by
  simp only [parseEscape]
  rw [if_neg (by decide : ¬ (('u' : Char) = '"')),
    if_neg (by decide : ¬ (('u' : Char) = '\\')),
    if_neg (by decide : ¬ (('u' : Char) = '/')),
    if_neg (by decide : ¬ (('u' : Char) = 'b')),
    if_neg (by decide : ¬ (('u' : Char) = 'f')),
    if_neg (by decide : ¬ (('u' : Char) = 'n')),
    if_neg (by decide : ¬ (('u' : Char) = 'r')),
    if_neg (by decide : ¬ (('u' : Char) = 't')),
    if_pos trivial, hn]
  dsimp only
  rw [if_neg (by omega : ¬ (n < 55296 ∨ 57343 < n)), if_pos hhi2]
  rw [if_pos (⟨trivial, trivial⟩ : True ∧ True), hm]
  dsimp only
  rw [if_pos ⟨hlo1, hlo2⟩]

theorem psl_succ_quote (fuel : Nat) (rest : List Char) :
    parseStrLoop (fuel + 1) ('"' :: rest) = some ([], rest) := by
  rw [parseStrLoop.eq_def]; rfl

theorem psl_succ_esc (fuel : Nat) (rest : List Char) :
    parseStrLoop (fuel + 1) ('\\' :: rest) =
      match parseEscape rest with
      | some (d, r) =>
        match parseStrLoop fuel r with
        | some (s, r2) => some (d :: s, r2)
        | none => none
      | none => none := by
  rw [parseStrLoop.eq_def]; rfl

theorem psl_succ_raw (fuel : Nat) (c : Char) (rest : List Char)
    (h1 : c ≠ '"') (h2 : c ≠ '\\') (h3 : ¬ c.toNat < 32) :
    parseStrLoop (fuel + 1) (c :: rest) =
      match parseStrLoop fuel rest with
      | some (s, r2) => some (c :: s, r2)
      | none => none := by
  rw [parseStrLoop.eq_def]
  dsimp only
  rw [if_neg h1, if_neg h2, if_neg h3]

theorem psl_esc2_step (f : Nat) (e d : Char) (s tail rest' : List Char)
    (hpe : parseEscape (e :: tail) = some (d, tail))
    (hrec : parseStrLoop f tail = some (s, rest')) :
    parseStrLoop (f + 1) ('\\' :: e :: tail) = some (d :: s, rest') := by
  rw [psl_succ_esc, hpe]
  dsimp only
  rw [hrec]

theorem psl_rt : ∀ (s : List Char) (fuel : Nat) (rest : List Char),
    (encodeStrBody s).length < fuel →
    parseStrLoop fuel (encodeStrBody s ++ '"' :: rest) = some (s, rest) := by
  intro s
  induction s with
  | nil =>
    intro fuel rest hf
    simp only [encodeStrBody, List.length_nil] at hf
    obtain ⟨f, rfl⟩ : ∃ f, fuel = f + 1 := ⟨fuel - 1, by omega⟩
    simp only [encodeStrBody, List.nil_append]
    exact psl_succ_quote f rest
  | cons c cs ih =>
    intro fuel rest hf
    simp only [encodeStrBody] at hf ⊢
    by_cases hq : c = '"'
    · subst hq
      rw [show escapeChar '"' = ['\\', '"'] from rfl] at hf ⊢
      simp only [List.length_append, List.length_cons, List.length_nil] at hf
      obtain ⟨f, rfl⟩ : ∃ f, fuel = f + 1 := ⟨fuel - 1, by omega⟩
      simp only [List.cons_append, List.nil_append]
      exact psl_esc2_step f '"' '"' cs _ rest rfl (ih f rest (by omega))
    · by_cases hbs : c = '\\'
      · subst hbs
        rw [show escapeChar '\\' = ['\\', '\\'] from rfl] at hf ⊢
        simp only [List.length_append, List.length_cons, List.length_nil] at hf
        obtain ⟨f, rfl⟩ : ∃ f, fuel = f + 1 := ⟨fuel - 1, by omega⟩
        simp only [List.cons_append, List.nil_append]
        exact psl_esc2_step f '\\' '\\' cs _ rest rfl (ih f rest (by omega))
      · by_cases h8 : c = Char.ofNat 8
        · subst h8
          rw [show escapeChar (Char.ofNat 8) = ['\\', 'b'] from rfl] at hf ⊢
          simp only [List.length_append, List.length_cons, List.length_nil] at hf
          obtain ⟨f, rfl⟩ : ∃ f, fuel = f + 1 := ⟨fuel - 1, by omega⟩
          simp only [List.cons_append, List.nil_append]
          exact psl_esc2_step f 'b' (Char.ofNat 8) cs _ rest rfl (ih f rest (by omega))
        · by_cases h12 : c = Char.ofNat 12
          · subst h12
            rw [show escapeChar (Char.ofNat 12) = ['\\', 'f'] from rfl] at hf ⊢
            simp only [List.length_append, List.length_cons, List.length_nil] at hf
            obtain ⟨f, rfl⟩ : ∃ f, fuel = f + 1 := ⟨fuel - 1, by omega⟩
            simp only [List.cons_append, List.nil_append]
            exact psl_esc2_step f 'f' (Char.ofNat 12) cs _ rest rfl (ih f rest (by omega))
          · by_cases hn : c = '\n'
            · subst hn
              rw [show escapeChar '\n' = ['\\', 'n'] from rfl] at hf ⊢
              simp only [List.length_append, List.length_cons, List.length_nil] at hf
              obtain ⟨f, rfl⟩ : ∃ f, fuel = f + 1 := ⟨fuel - 1, by omega⟩
              simp only [List.cons_append, List.nil_append]
              exact psl_esc2_step f 'n' '\n' cs _ rest rfl (ih f rest (by omega))
            · by_cases hr : c = '\r'
              · subst hr
                rw [show escapeChar '\r' = ['\\', 'r'] from rfl] at hf ⊢
                simp only [List.length_append, List.length_cons, List.length_nil] at hf
                obtain ⟨f, rfl⟩ : ∃ f, fuel = f + 1 := ⟨fuel - 1, by omega⟩
                simp only [List.cons_append, List.nil_append]
                exact psl_esc2_step f 'r' '\r' cs _ rest rfl (ih f rest (by omega))
              · by_cases ht : c = '\t'
                · subst ht
                  rw [show escapeChar '\t' = ['\\', 't'] from rfl] at hf ⊢
                  simp only [List.length_append, List.length_cons, List.length_nil] at hf
                  obtain ⟨f, rfl⟩ : ∃ f, fuel = f + 1 := ⟨fuel - 1, by omega⟩
                  simp only [List.cons_append, List.nil_append]
                  exact psl_esc2_step f 't' '\t' cs _ rest rfl (ih f rest (by omega))
                · by_cases hpr : 32 ≤ c.toNat ∧ c.toNat ≤ 126
                  · have he : escapeChar c = [c] := by
                      rw [escapeChar, if_neg hq, if_neg hbs, if_neg h8, if_neg h12,
                        if_neg hn, if_neg hr, if_neg ht, if_pos hpr]
                    rw [he] at hf ⊢
                    simp only [List.length_append, List.length_cons,
                      List.length_nil] at hf
                    obtain ⟨f, rfl⟩ : ∃ f, fuel = f + 1 := ⟨fuel - 1, by omega⟩
                    simp only [List.cons_append, List.nil_append]
                    rw [psl_succ_raw f c _ hq hbs (by omega)]
                    rw [ih f rest (by omega)]
                  · by_cases hbmp : c.toNat < 65536
                    · have he : escapeChar c = '\\' :: 'u' :: hex4 c.toNat := by
                        rw [escapeChar, if_neg hq, if_neg hbs, if_neg h8, if_neg h12,
                          if_neg hn, if_neg hr, if_neg ht, if_neg hpr, if_pos hbmp]
                      rw [he] at hf ⊢
                      simp only [hex4, List.length_append, List.length_cons,
                        List.length_nil] at hf
                      obtain ⟨f, rfl⟩ : ∃ f, fuel = f + 1 := ⟨fuel - 1, by omega⟩
                      simp only [hex4, List.cons_append, List.nil_append]
                      have hpe := pe_u_norm (hexDigitCh (c.toNat / 4096 % 16))
                        (hexDigitCh (c.toNat / 256 % 16)) (hexDigitCh (c.toNat / 16 % 16))
                        (hexDigitCh (c.toNat % 16)) c.toNat
                        (encodeStrBody cs ++ '"' :: rest)
                        (hex4_hex4val c.toNat hbmp)
                        (by rcases char_valid_range c with h | h
                            · exact Or.inl h
                            · exact Or.inr h.1)
                      rw [psl_succ_esc, hpe]
                      dsimp only
                      rw [ih f rest (by omega), Char.ofNat_toNat]
                    · have hval := char_valid_range c
                      have h65 : 65536 ≤ c.toNat := by omega
                      have hlt : c.toNat < 1114112 := by omega
                      have he : escapeChar c =
                          ('\\' :: 'u' :: hex4 (55296 + (c.toNat - 65536) / 1024)) ++
                          ('\\' :: 'u' :: hex4 (56320 + (c.toNat - 65536) % 1024)) := by
                        rw [escapeChar, if_neg hq, if_neg hbs, if_neg h8, if_neg h12,
                          if_neg hn, if_neg hr, if_neg ht, if_neg hpr, if_neg hbmp]
                      rw [he] at hf ⊢
                      simp only [hex4, List.length_append, List.length_cons,
                        List.length_nil] at hf
                      obtain ⟨f, rfl⟩ : ∃ f, fuel = f + 1 := ⟨fuel - 1, by omega⟩
                      simp only [hex4, List.cons_append, List.nil_append]
                      have hhiv : (55296 + (c.toNat - 65536) / 1024) < 65536 := by omega
                      have hlov : (56320 + (c.toNat - 65536) % 1024) < 65536 := by omega
                      have hpe := pe_u_pair
                        (hexDigitCh ((55296 + (c.toNat - 65536) / 1024) / 4096 % 16))
                        (hexDigitCh ((55296 + (c.toNat - 65536) / 1024) / 256 % 16))
                        (hexDigitCh ((55296 + (c.toNat - 65536) / 1024) / 16 % 16))
                        (hexDigitCh ((55296 + (c.toNat - 65536) / 1024) % 16))
                        (hexDigitCh ((56320 + (c.toNat - 65536) % 1024) / 4096 % 16))
                        (hexDigitCh ((56320 + (c.toNat - 65536) % 1024) / 256 % 16))
                        (hexDigitCh ((56320 + (c.toNat - 65536) % 1024) / 16 % 16))
                        (hexDigitCh ((56320 + (c.toNat - 65536) % 1024) % 16))
                        (55296 + (c.toNat - 65536) / 1024)
                        (56320 + (c.toNat - 65536) % 1024)
                        (encodeStrBody cs ++ '"' :: rest)
                        (hex4_hex4val _ hhiv) (by omega) (by omega)
                        (hex4_hex4val _ hlov) (by omega) (by omega)
                      rw [psl_succ_esc, hpe]
                      dsimp only
                      rw [ih f rest (by omega)]
                      have hcomb : 65536 +
                          (55296 + (c.toNat - 65536) / 1024 - 55296) * 1024 +
                          (56320 + (c.toNat - 65536) % 1024 - 56320) = c.toNat := by
                        omega
                      rw [hcomb, Char.ofNat_toNat]

theorem psb_rt (s : List Char) (rest : List Char) :
    parseStringBody (encodeStrBody s ++ '"' :: rest) = some (s, rest) := by
  unfold parseStringBody
  apply psl_rt
  simp only [List.length_append, List.length_cons]
  omega

theorem ps_val_null (f : Nat) (rest : List Char) :
    parseStep (f + 1) PMode.val ('n' :: rest) =
      match expectChars ['u', 'l', 'l'] rest with
      | some r => some (.v .null, r)
      | none => none := by
  rw [parseStep.eq_def]; rfl

theorem ps_val_true (f : Nat) (rest : List Char) :
    parseStep (f + 1) PMode.val ('t' :: rest) =
      match expectChars ['r', 'u', 'e'] rest with
      | some r => some (.v (.bool true), r)
      | none => none := by
  rw [parseStep.eq_def]; rfl

theorem ps_val_false (f : Nat) (rest : List Char) :
    parseStep (f + 1) PMode.val ('f' :: rest) =
      match expectChars ['a', 'l', 's', 'e'] rest with
      | some r => some (.v (.bool false), r)
      | none => none := by
  rw [parseStep.eq_def]; rfl

theorem ps_val_str (f : Nat) (rest : List Char) :
    parseStep (f + 1) PMode.val ('"' :: rest) =
      match parseStringBody rest with
      | some (s, r) => some (.v (.str (String.mk s)), r)
      | none => none := by
  rw [parseStep.eq_def]; rfl

theorem ps_val_arr (f : Nat) (rest : List Char) :
    parseStep (f + 1) PMode.val ('[' :: rest) =
      (if (skipWs rest).head? = some ']' then
        some (.v (.arr []), (skipWs rest).tail)
      else
        match parseStep f PMode.elems (skipWs rest) with
        | some (.es xs, r2) => some (.v (.arr xs), r2)
        | _ => none) := by
  rw [parseStep.eq_def]; rfl

theorem ps_val_obj (f : Nat) (rest : List Char) :
    parseStep (f + 1) PMode.val (lbrace :: rest) =
      (if (skipWs rest).head? = some rbrace then
        some (.v (.obj []), (skipWs rest).tail)
      else
        match parseStep f PMode.members (skipWs rest) with
        | some (.ms fs, r2) => some (.v (.obj fs), r2)
        | _ => none) := by
  rw [parseStep.eq_def]; rfl

theorem ps_val_num (f : Nat) (c : Char) (rest : List Char)
    (h1 : c ≠ 'n') (h2 : c ≠ 't') (h3 : c ≠ 'f') (h4 : c ≠ '"')
    (h5 : c ≠ '[') (h6 : c ≠ lbrace) :
    parseStep (f + 1) PMode.val (c :: rest) =
      match parseNumber (c :: rest) with
      | some (i, r) => some (.v (.int i), r)
      | none => none := by
  rw [parseStep.eq_def]
  dsimp only
  rw [if_neg h1, if_neg h2, if_neg h3, if_neg h4, if_neg h5, if_neg h6]

theorem ps_elems (f : Nat) (cs : List Char) :
    parseStep (f + 1) PMode.elems cs =
      match parseStep f PMode.val cs with
      | some (.v x, r) =>
        if (skipWs r).head? = some ',' then
          match parseStep f PMode.elems (skipWs (skipWs r).tail) with
          | some (.es xs, r3) => some (.es (x :: xs), r3)
          | _ => none
        else if (skipWs r).head? = some ']' then some (.es [x], (skipWs r).tail)
        else none
      | _ => none := by
  rw [parseStep.eq_def]

theorem ps_members_key (f : Nat) (rest : List Char) :
    parseStep (f + 1) PMode.members ('"' :: rest) =
      match parseStringBody rest with
      | some (kcs, r1) =>
        if (skipWs r1).head? = some ':' then
          match parseStep f PMode.val (skipWs (skipWs r1).tail) with
          | some (.v x, r3) =>
            if (skipWs r3).head? = some ',' then
              match parseStep f PMode.members (skipWs (skipWs r3).tail) with
              | some (.ms fs, r5) => some (.ms ((String.mk kcs, x) :: fs), r5)
              | _ => none
            else if (skipWs r3).head? = some rbrace then
              some (.ms [(String.mk kcs, x)], (skipWs r3).tail)
            else none
          | _ => none
        else none
      | none => none := by
  rw [parseStep.eq_def]; rfl

theorem mk_data (s : String) : String.mk s.data = s := by
  cases s; rfl

theorem wVal_pos (v : JValue) : 1 ≤ wVal v := by
  cases v <;> simp [wVal]

theorem natDigits_head (n : Nat) :
    ∃ d t, natDigits n = d :: t ∧ isDigitCh d = true := by
  by_cases h0 : n = 0
  · subst h0
    exact ⟨'0', [], rfl, by decide⟩
  · obtain ⟨d, ds, hgo, hdig, _, _, _⟩ := digitsGo_spec n n (by omega) (le_refl n)
    exact ⟨d, ds, by rw [natDigits, if_neg h0, hgo], hdig⟩

theorem intChars_head (i : Int) :
    ∃ c t, intChars i = c :: t ∧ (c = '-' ∨ isDigitCh c = true) := by
  by_cases hneg : i < 0
  · exact ⟨'-', natDigits i.natAbs, by rw [intChars, if_pos hneg], Or.inl rfl⟩
  · obtain ⟨d, t, hd, hdig⟩ := natDigits_head i.natAbs
    exact ⟨d, t, by rw [intChars, if_neg hneg, hd], Or.inr hdig⟩

theorem dumpsVC_head (v : JValue) :
    ∃ c t, dumpsVC v = c :: t ∧ headOkJson c := by
  cases v with
  | null => exact ⟨'n', _, rfl, Or.inl rfl⟩
  | bool b =>
    cases b
    · exact ⟨'f', _, rfl, Or.inr (Or.inr (Or.inl rfl))⟩
    · exact ⟨'t', _, rfl, Or.inr (Or.inl rfl)⟩
  | int i =>
    obtain ⟨c, t, hc, hd⟩ := intChars_head i
    refine ⟨c, t, by simp [dumpsVC, hc], ?_⟩
    rcases hd with hd | hd
    · exact Or.inr (Or.inr (Or.inr (Or.inr (Or.inr (Or.inr (Or.inl hd))))))
    · exact Or.inr (Or.inr (Or.inr (Or.inr (Or.inr (Or.inr (Or.inr hd))))))
  | str s =>
    exact ⟨'"', encodeStrBody s.data ++ ['"'], by simp [dumpsVC, encodeStringCh],
      Or.inr (Or.inr (Or.inr (Or.inl rfl)))⟩
  | arr xs =>
    exact ⟨'[', dumpsEC xs ++ [']'], by simp [dumpsVC],
      Or.inr (Or.inr (Or.inr (Or.inr (Or.inl rfl))))⟩
  | obj fs =>
    exact ⟨lbrace, dumpsMC fs ++ [rbrace], by simp [dumpsVC],
      Or.inr (Or.inr (Or.inr (Or.inr (Or.inr (Or.inl rfl)))))⟩

theorem digit_toNat_bounds (c : Char) (h : isDigitCh c = true) :
    48 ≤ c.toNat ∧ c.toNat ≤ 57 := by
  simpa [isDigitCh, Bool.and_eq_true, decide_eq_true_eq] using h

theorem headOk_not_ws (c : Char) (h : headOkJson c) : isWsCh c = false := by
  rcases h with h | h | h | h | h | h | h | h
  · rw [h]; decide
  · rw [h]; decide
  · rw [h]; decide
  · rw [h]; decide
  · rw [h]; decide
  · rw [h]; decide
  · rw [h]; decide
  · have hb := digit_toNat_bounds c h
    simp only [isWsCh, Bool.or_eq_false_iff, decide_eq_false_iff_not]
    refine ⟨⟨⟨?_, ?_⟩, ?_⟩, ?_⟩ <;>
      (intro he; rw [he] at hb; revert hb; decide)

theorem headOk_ne_rbrack (c : Char) (h : headOkJson c) : c ≠ ']' := by
  rcases h with h | h | h | h | h | h | h | h
  · rw [h]; decide
  · rw [h]; decide
  · rw [h]; decide
  · rw [h]; decide
  · rw [h]; decide
  · rw [h]; decide
  · rw [h]; decide
  · have hb := digit_toNat_bounds c h
    intro he; rw [he] at hb; revert hb; decide

theorem headOk_ne_rbrace (c : Char) (h : headOkJson c) : c ≠ rbrace := by
  rcases h with h | h | h | h | h | h | h | h
  · rw [h]; decide
  · rw [h]; decide
  · rw [h]; decide
  · rw [h]; decide
  · rw [h]; decide
  · rw [h]; decide
  · rw [h]; decide
  · have hb := digit_toNat_bounds c h
    intro he; rw [he] at hb; revert hb; decide

theorem int_head_ne (c : Char) (h : c = '-' ∨ isDigitCh c = true) :
    c ≠ 'n' ∧ c ≠ 't' ∧ c ≠ 'f' ∧ c ≠ '"' ∧ c ≠ '[' ∧ c ≠ lbrace := by
  rcases h with h | h
  · subst h
    refine ⟨by decide, by decide, by decide, by decide, by decide, by decide⟩
  · have hb := digit_toNat_bounds c h
    refine ⟨?_, ?_, ?_, ?_, ?_, ?_⟩ <;>
      (intro he; rw [he] at hb; revert hb; decide)

theorem nbV_rbrack (v : JValue) (rest : List Char) :
    numBoundaryV v (']' :: rest) := by
  cases v <;> trivial

theorem nbV_comma (v : JValue) (rest : List Char) :
    numBoundaryV v (',' :: rest) := by
  cases v <;> trivial

theorem nbV_rbrace (v : JValue) (rest : List Char) :
    numBoundaryV v (rbrace :: rest) := by
  cases v <;> trivial

theorem nbV_nil (v : JValue) : numBoundaryV v [] := by
  cases v <;> trivial

theorem dumps_append_cons (v : JValue) (X : List Char) :
    ∃ c t, dumpsVC v ++ X = c :: t ∧ headOkJson c := by
  obtain ⟨c, t, hc, hok⟩ := dumpsVC_head v
  exact ⟨c, t ++ X, by rw [hc]; rfl, hok⟩

theorem skipWs_dumps (v : JValue) (X : List Char) :
    skipWs (dumpsVC v ++ X) = dumpsVC v ++ X := by
  obtain ⟨c, t, hc, hok⟩ := dumps_append_cons v X
  rw [hc, skipWs_not_ws c t (headOk_not_ws c hok)]

theorem dumps_head_ne_rbrack (v : JValue) (X : List Char) :
    ¬ ((dumpsVC v ++ X).head? = some ']') := by
  obtain ⟨c, t, hc, hok⟩ := dumps_append_cons v X
  rw [hc]
  simp only [List.head?_cons, Option.some.injEq]
  exact headOk_ne_rbrack c hok

theorem dumps_head_ne_rbrace (v : JValue) (X : List Char) :
    ¬ ((dumpsVC v ++ X).head? = some rbrace) := by
  obtain ⟨c, t, hc, hok⟩ := dumps_append_cons v X
  rw [hc]
  simp only [List.head?_cons, Option.some.injEq]
  exact headOk_ne_rbrace c hok

theorem dumpsMC_cons_shape (k : String) (v : JValue) (fs : List (String × JValue)) :
    dumpsMC ((k, v) :: fs) =
      '"' :: (encodeStrBody k.data ++ '"' :: ':' :: ' ' ::
        (dumpsVC v ++ (if fs.isEmpty then [] else ',' :: ' ' :: dumpsMC fs))) := by
  simp [dumpsMC, encodeStringCh]

theorem head_cons_eq (c : Char) (t : List Char) : (c :: t).head? = some c := rfl

theorem head_cons_ne (c d : Char) (t : List Char) (h : c ≠ d) :
    ¬ ((c :: t).head? = some d) := by
  simp only [List.head?_cons, Option.some.injEq]
  exact h

theorem parseStep_rt : ∀ fuel : Nat,
    (∀ (v : JValue) (rest : List Char), wVal v ≤ fuel → numBoundaryV v rest →
      parseStep fuel PMode.val (dumpsVC v ++ rest) = some (.v v, rest)) ∧
    (∀ (x : JValue) (xs : List JValue) (rest : List Char),
      wElems (x :: xs) ≤ fuel →
      parseStep fuel PMode.elems (dumpsEC (x :: xs) ++ ']' :: rest) =
        some (.es (x :: xs), rest)) ∧
    (∀ (k : String) (v : JValue) (fs : List (String × JValue)) (rest : List Char),
      wMembers ((k, v) :: fs) ≤ fuel →
      parseStep fuel PMode.members (dumpsMC ((k, v) :: fs) ++ rbrace :: rest) =
        some (.ms ((k, v) :: fs), rest)) := by
  intro fuel
  induction fuel with
  | zero =>
    refine ⟨fun v rest hw _ => absurd hw (by have := wVal_pos v; omega),
      fun x xs rest hw => absurd hw (by simp only [wElems]; omega),
      fun k v fs rest hw => absurd hw (by simp only [wMembers]; omega)⟩
  | succ fuel ih =>
    obtain ⟨ihv, ihe, ihm⟩ := ih
    have hval : ∀ (v : JValue) (rest : List Char), wVal v ≤ fuel + 1 →
        numBoundaryV v rest →
        parseStep (fuel + 1) PMode.val (dumpsVC v ++ rest) = some (.v v, rest) := by
      intro v rest hw hb
      cases v with
      | null =>
        have hec : expectChars ['u', 'l', 'l'] ('u' :: 'l' :: 'l' :: rest) =
            some rest := expectChars_self ['u', 'l', 'l'] rest
        simp only [dumpsVC, List.cons_append, List.nil_append]
        rw [ps_val_null, hec]
      | bool b =>
        cases b
        · have hec : expectChars ['a', 'l', 's', 'e']
              ('a' :: 'l' :: 's' :: 'e' :: rest) = some rest :=
            expectChars_self ['a', 'l', 's', 'e'] rest
          simp only [dumpsVC, List.cons_append, List.nil_append]
          rw [ps_val_false, hec]
        · have hec : expectChars ['r', 'u', 'e'] ('r' :: 'u' :: 'e' :: rest) =
              some rest := expectChars_self ['r', 'u', 'e'] rest
          simp only [dumpsVC, List.cons_append, List.nil_append]
          rw [ps_val_true, hec]
      | int i =>
        obtain ⟨c, t, hc, hd⟩ := intChars_head i
        obtain ⟨n1, n2, n3, n4, n5, n6⟩ := int_head_ne c hd
        have hnum : parseNumber (intChars i ++ rest) = some (i, rest) :=
          parseNumber_intChars i rest hb
        simp only [dumpsVC]
        rw [hc, List.cons_append, ps_val_num fuel c _ n1 n2 n3 n4 n5 n6,
          ← List.cons_append, ← hc, hnum]
      | str s =>
        simp only [dumpsVC, encodeStringCh, List.cons_append, List.append_assoc,
          List.nil_append]
        rw [ps_val_str, psb_rt s.data rest]
      | arr xs =>
        cases xs with
        | nil =>
          simp only [dumpsVC, dumpsEC, List.cons_append, List.nil_append]
          rw [ps_val_arr]
          rw [skipWs_not_ws ']' rest (by decide), if_pos (head_cons_eq ']' rest)]
          rfl
        | cons x xs =>
          simp only [dumpsVC, List.cons_append, List.append_assoc,
            List.nil_append]
          rw [ps_val_arr]
          have hsh : dumpsEC (x :: xs) ++ ']' :: rest =
              dumpsVC x ++ ((if xs.isEmpty then [] else ',' :: ' ' :: dumpsEC xs) ++
                ']' :: rest) := by
            simp [dumpsEC, List.append_assoc]
          rw [hsh, skipWs_dumps x _,
            if_neg (dumps_head_ne_rbrack x _), ← hsh]
          have hw' : wElems (x :: xs) ≤ fuel := by
            simp only [wVal] at hw
            omega
          rw [ihe x xs rest hw']
      | obj fs =>
        cases fs with
        | nil =>
          simp only [dumpsVC, dumpsMC, List.cons_append, List.nil_append]
          rw [ps_val_obj]
          rw [skipWs_not_ws rbrace rest (by decide), if_pos (head_cons_eq rbrace rest)]
          rfl
        | cons kv fs =>
          obtain ⟨k, v⟩ := kv
          simp only [dumpsVC, List.cons_append, List.append_assoc,
            List.nil_append]
          rw [ps_val_obj]
          have hsh : dumpsMC ((k, v) :: fs) ++ rbrace :: rest =
              '"' :: (encodeStrBody k.data ++ '"' :: ':' :: ' ' ::
                (dumpsVC v ++ (if fs.isEmpty then [] else ',' :: ' ' :: dumpsMC fs)) ++
                rbrace :: rest) := by
            rw [dumpsMC_cons_shape]
            simp [List.append_assoc]
          rw [hsh, skipWs_not_ws '"' _ (by decide),
            if_neg (by simp only [List.head?_cons, Option.some.injEq]; decide),
            ← hsh]
          have hw' : wMembers ((k, v) :: fs) ≤ fuel := by
            simp only [wVal] at hw
            omega
          rw [ihm k v fs rest hw']
    refine ⟨hval, ?_, ?_⟩
    · intro x xs rest hw
      rw [ps_elems]
      cases xs with
      | nil =>
        have hsh : dumpsEC [x] ++ ']' :: rest = dumpsVC x ++ ']' :: rest := by
          simp [dumpsEC]
        rw [hsh, ihv x (']' :: rest) (by simp only [wElems] at hw; omega)
          (nbV_rbrack x rest)]
        dsimp only
        rw [skipWs_not_ws ']' rest (by decide),
          if_neg (head_cons_ne ']' ',' rest (by decide)),
          if_pos (head_cons_eq ']' rest)]
        rfl
      | cons x' xs' =>
        have hsh : dumpsEC (x :: x' :: xs') ++ ']' :: rest =
            dumpsVC x ++ ',' :: ' ' :: (dumpsEC (x' :: xs') ++ ']' :: rest) := by
          simp [dumpsEC, List.append_assoc]
        rw [hsh, ihv x _ (by simp only [wElems] at hw; omega)
          (nbV_comma x _)]
        dsimp only
        rw [skipWs_not_ws ',' _ (by decide),
          if_pos (head_cons_eq ',' (' ' :: (dumpsEC (x' :: xs') ++ ']' :: rest)))]
        dsimp only [List.tail_cons]
        have hsw : skipWs (' ' :: (dumpsEC (x' :: xs') ++ ']' :: rest)) =
            dumpsEC (x' :: xs') ++ ']' :: rest := by
          have h1 : skipWs (' ' :: (dumpsEC (x' :: xs') ++ ']' :: rest)) =
              skipWs (dumpsEC (x' :: xs') ++ ']' :: rest) := by
            simp only [skipWs]
            rw [if_pos (by decide : isWsCh ' ' = true)]
          rw [h1]
          have hsh2 : dumpsEC (x' :: xs') ++ ']' :: rest =
              dumpsVC x' ++ ((if xs'.isEmpty then [] else ',' :: ' ' :: dumpsEC xs') ++
                ']' :: rest) := by
            simp [dumpsEC, List.append_assoc]
          rw [hsh2, skipWs_dumps, ← hsh2]
        rw [hsw, ihe x' xs' rest (by simp only [wElems] at hw ⊢; omega)]
    · intro k v fs rest hw
      have hsh : dumpsMC ((k, v) :: fs) ++ rbrace :: rest =
          '"' :: (encodeStrBody k.data ++ '"' ::
            (':' :: ' ' ::
              (dumpsVC v ++ ((if fs.isEmpty then [] else ',' :: ' ' :: dumpsMC fs) ++
                rbrace :: rest)))) := by
        rw [dumpsMC_cons_shape]
        simp [List.append_assoc]
      rw [hsh, ps_members_key, psb_rt k.data _]
      dsimp only
      rw [skipWs_not_ws ':' _ (by decide), if_pos (head_cons_eq ':' _)]
      dsimp only [List.tail_cons]
      have hsw : skipWs (' ' :: (dumpsVC v ++
          ((if fs.isEmpty then [] else ',' :: ' ' :: dumpsMC fs) ++ rbrace :: rest))) =
          dumpsVC v ++
            ((if fs.isEmpty then [] else ',' :: ' ' :: dumpsMC fs) ++ rbrace :: rest) := by
        have h1 : skipWs (' ' :: (dumpsVC v ++
            ((if fs.isEmpty then [] else ',' :: ' ' :: dumpsMC fs) ++ rbrace :: rest))) =
            skipWs (dumpsVC v ++
              ((if fs.isEmpty then [] else ',' :: ' ' :: dumpsMC fs) ++ rbrace :: rest)) := by
          simp only [skipWs]
          rw [if_pos (by decide : isWsCh ' ' = true)]
        rw [h1, skipWs_dumps]
      rw [hsw]
      cases fs with
      | nil =>
        rw [show (if ([] : List (String × JValue)).isEmpty then ([] : List Char)
            else ',' :: ' ' :: dumpsMC []) = [] from rfl, List.nil_append]
        rw [ihv v (rbrace :: rest) (by simp only [wMembers] at hw; omega)
          (nbV_rbrace v rest)]
        dsimp only
        rw [skipWs_not_ws rbrace rest (by decide),
          if_neg (head_cons_ne rbrace ',' rest (by decide)),
          if_pos (head_cons_eq rbrace rest)]
        rfl
      | cons kv' fs' =>
        obtain ⟨k', v'⟩ := kv'
        rw [show (if ((k', v') :: fs' : List (String × JValue)).isEmpty then ([] : List Char)
            else ',' :: ' ' :: dumpsMC ((k', v') :: fs')) =
            ',' :: ' ' :: dumpsMC ((k', v') :: fs') from rfl]
        rw [List.cons_append, List.cons_append]
        rw [ihv v _ (by simp only [wMembers] at hw; omega) (nbV_comma v _)]
        dsimp only
        rw [skipWs_not_ws ',' _ (by decide),
          if_pos (head_cons_eq ',' (' ' :: (dumpsMC ((k', v') :: fs') ++ rbrace :: rest)))]
        dsimp only [List.tail_cons]
        have hsw2 : skipWs (' ' :: (dumpsMC ((k', v') :: fs') ++ rbrace :: rest)) =
            dumpsMC ((k', v') :: fs') ++ rbrace :: rest := by
          have h1 : skipWs (' ' :: (dumpsMC ((k', v') :: fs') ++ rbrace :: rest)) =
              skipWs (dumpsMC ((k', v') :: fs') ++ rbrace :: rest) := by
            simp only [skipWs]
            rw [if_pos (by decide : isWsCh ' ' = true)]
          rw [h1, dumpsMC_cons_shape, List.cons_append,
            skipWs_not_ws '"' _ (by decide), ← List.cons_append, ← dumpsMC_cons_shape]
        rw [hsw2, ihm k' v' fs' rest (by simp only [wMembers] at hw ⊢; omega)]

theorem weight_le_aux : ∀ n : Nat,
    (∀ v : JValue, sizeOf v ≤ n → wVal v ≤ (dumpsVC v).length) ∧
    (∀ xs : List JValue, sizeOf xs ≤ n → wElems xs ≤ (dumpsEC xs).length + 1) ∧
    (∀ fs : List (String × JValue), sizeOf fs ≤ n →
      wMembers fs ≤ (dumpsMC fs).length + 1) := by
  intro n
  induction n using Nat.strong_induction_on with
  | _ n ih =>
    refine ⟨?_, ?_, ?_⟩
    · intro v hv
      cases v with
      | null => simp [wVal, dumpsVC]
      | bool b => cases b <;> simp [wVal, dumpsVC]
      | int i =>
        obtain ⟨c, t, hc, _⟩ := intChars_head i
        simp [wVal, dumpsVC, hc]
      | str s => simp [wVal, dumpsVC, encodeStringCh]
      | arr xs =>
        have hlt : sizeOf xs < n := by
          have hs := JValue.arr.sizeOf_spec xs
          omega
        have he := (ih (sizeOf xs) hlt).2.1 xs (le_refl _)
        simp only [wVal, dumpsVC, List.length_cons, List.length_append,
          List.length_nil]
        omega
      | obj fs =>
        have hlt : sizeOf fs < n := by
          have hs := JValue.obj.sizeOf_spec fs
          omega
        have hm := (ih (sizeOf fs) hlt).2.2 fs (le_refl _)
        simp only [wVal, dumpsVC, List.length_cons, List.length_append,
          List.length_nil]
        omega
    · intro xs hxs
      cases xs with
      | nil => simp [wElems, dumpsEC]
      | cons x xs =>
        have hltx : sizeOf x < n := by
          have hs := List.cons.sizeOf_spec x xs
          omega
        have hltxs : sizeOf xs < n := by
          have hs := List.cons.sizeOf_spec x xs
          omega
        have hx := (ih (sizeOf x) hltx).1 x (le_refl _)
        have hxs' := (ih (sizeOf xs) hltxs).2.1 xs (le_refl _)
        cases xs with
        | nil =>
          simp only [wElems, dumpsEC, List.isEmpty_nil, if_pos,
            List.append_nil, List.length_append]
          omega
        | cons x' xs' =>
          simp only [wElems, dumpsEC, List.isEmpty_cons, Bool.false_eq_true,
            if_false, List.length_append, List.length_cons] at hxs' ⊢
          omega
    · intro fs hfs
      cases fs with
      | nil => simp [wMembers, dumpsMC]
      | cons kv fs =>
        obtain ⟨k, v⟩ := kv
        have hltv : sizeOf v < n := by
          have hs1 := List.cons.sizeOf_spec (k, v) fs
          have hs2 : sizeOf ((k, v) : String × JValue) = 1 + sizeOf k + sizeOf v :=
            Prod.mk.sizeOf_spec k v
          omega
        have hltfs : sizeOf fs < n := by
          have hs1 := List.cons.sizeOf_spec (k, v) fs
          omega
        have hv := (ih (sizeOf v) hltv).1 v (le_refl _)
        have hfs' := (ih (sizeOf fs) hltfs).2.2 fs (le_refl _)
        cases fs with
        | nil =>
          simp only [wMembers, dumpsMC, List.isEmpty_nil, if_pos,
            List.append_nil, List.length_append, List.length_cons]
          omega
        | cons kv' fs' =>
          simp only [wMembers, dumpsMC, List.isEmpty_cons, Bool.false_eq_true,
            if_false, List.length_append, List.length_cons] at hfs' ⊢
          omega

theorem wVal_le_len (v : JValue) : wVal v ≤ (dumpsVC v).length :=
  (weight_le_aux (sizeOf v)).1 v (le_refl _)

theorem loads_dumps (v : JValue) : loads (dumps v) = .ok v := by
  have hsk : skipWs (dumps v).data = dumpsVC v := by
    obtain ⟨c, t, hc, hok⟩ := dumpsVC_head v
    show skipWs (dumpsVC v) = dumpsVC v
    rw [hc, skipWs_not_ws c t (headOk_not_ws c hok)]
  unfold loads
  rw [hsk]
  have hrt := (parseStep_rt ((dumpsVC v).length + 1)).1 v []
    (by have := wVal_le_len v; omega) (nbV_nil v)
  rw [List.append_nil] at hrt
  rw [hrt]
  rfl

theorem unpack_dumps (v : JValue) : unpack_data (dumps v) = .ok v :=
  loads_dumps v

theorem pe_sound (cs : List Char) (d : Char) (r : List Char)
    (h : parseEscape cs = some (d, r)) :
    ∃ pre, cs = pre ++ r ∧
      ∀ (content rest : List Char), GStrBody content rest →
        GStrBody (d :: content) ('\\' :: (pre ++ rest)) := by
  cases cs with
  | nil => simp [parseEscape] at h
  | cons e r0 =>
    rw [parseEscape.eq_def] at h
    dsimp only at h
    by_cases h1 : e = '"'
    · rw [if_pos h1] at h
      obtain ⟨hd, hr⟩ := Prod.mk.injEq .. ▸ Option.some.inj h
      subst hd hr h1
      exact ⟨['"'], rfl, fun content rest hg =>
        GStrBody.esc '"' '"' content rest (Or.inl ⟨rfl, rfl⟩) hg⟩
    rw [if_neg h1] at h
    by_cases h2 : e = '\\'
    · rw [if_pos h2] at h
      obtain ⟨hd, hr⟩ := Prod.mk.injEq .. ▸ Option.some.inj h
      subst hd hr h2
      exact ⟨['\\'], rfl, fun content rest hg =>
        GStrBody.esc '\\' '\\' content rest (Or.inr (Or.inl ⟨rfl, rfl⟩)) hg⟩
    rw [if_neg h2] at h
    by_cases h3 : e = '/'
    · rw [if_pos h3] at h
      obtain ⟨hd, hr⟩ := Prod.mk.injEq .. ▸ Option.some.inj h
      subst hd hr h3
      exact ⟨['/'], rfl, fun content rest hg =>
        GStrBody.esc '/' '/' content rest (Or.inr (Or.inr (Or.inl ⟨rfl, rfl⟩))) hg⟩
    rw [if_neg h3] at h
    by_cases h4 : e = 'b'
    · rw [if_pos h4] at h
      obtain ⟨hd, hr⟩ := Prod.mk.injEq .. ▸ Option.some.inj h
      subst hd hr h4
      exact ⟨['b'], rfl, fun content rest hg =>
        GStrBody.esc 'b' (Char.ofNat 8) content rest
          (Or.inr (Or.inr (Or.inr (Or.inl ⟨rfl, rfl⟩)))) hg⟩
    rw [if_neg h4] at h
    by_cases h5 : e = 'f'
    · rw [if_pos h5] at h
      obtain ⟨hd, hr⟩ := Prod.mk.injEq .. ▸ Option.some.inj h
      subst hd hr h5
      exact ⟨['f'], rfl, fun content rest hg =>
        GStrBody.esc 'f' (Char.ofNat 12) content rest
          (Or.inr (Or.inr (Or.inr (Or.inr (Or.inl ⟨rfl, rfl⟩))))) hg⟩
    rw [if_neg h5] at h
    by_cases h6 : e = 'n'
    · rw [if_pos h6] at h
      obtain ⟨hd, hr⟩ := Prod.mk.injEq .. ▸ Option.some.inj h
      subst hd hr h6
      exact ⟨['n'], rfl, fun content rest hg =>
        GStrBody.esc 'n' '\n' content rest
          (Or.inr (Or.inr (Or.inr (Or.inr (Or.inr (Or.inl ⟨rfl, rfl⟩)))))) hg⟩
    rw [if_neg h6] at h
    by_cases h7 : e = 'r'
    · rw [if_pos h7] at h
      obtain ⟨hd, hr⟩ := Prod.mk.injEq .. ▸ Option.some.inj h
      subst hd hr h7
      exact ⟨['r'], rfl, fun content rest hg =>
        GStrBody.esc 'r' '\r' content rest
          (Or.inr (Or.inr (Or.inr (Or.inr (Or.inr (Or.inr (Or.inl ⟨rfl, rfl⟩))))))) hg⟩
    rw [if_neg h7] at h
    by_cases h8 : e = 't'
    · rw [if_pos h8] at h
      obtain ⟨hd, hr⟩ := Prod.mk.injEq .. ▸ Option.some.inj h
      subst hd hr h8
      exact ⟨['t'], rfl, fun content rest hg =>
        GStrBody.esc 't' '\t' content rest
          (Or.inr (Or.inr (Or.inr (Or.inr (Or.inr (Or.inr (Or.inr ⟨rfl, rfl⟩))))))) hg⟩
    rw [if_neg h8] at h
    by_cases h9 : e = 'u'
    · rw [if_pos h9] at h
      subst h9
      split at h
      · rename_i c1 c2 c3 c4 r2
        split at h
        · rename_i n hn
          split at h
          · rename_i hrange
            obtain ⟨hd, hr⟩ := Prod.mk.injEq .. ▸ Option.some.inj h
            subst hd hr
            exact ⟨'u' :: c1 :: c2 :: c3 :: c4 :: [], rfl,
              fun content rest hg =>
                GStrBody.uni c1 c2 c3 c4 n content rest hn hrange hg⟩
          · rename_i hnotrange
            split at h
            · rename_i hle
              split at h
              · rename_i b1 b2 d1 d2 d3 d4 r3
                split at h
                · rename_i hbu
                  obtain ⟨hb1, hb2⟩ := hbu
                  subst hb1 hb2
                  split at h
                  · rename_i m hm
                    split at h
                    · rename_i hlo
                      obtain ⟨hd, hr⟩ := Prod.mk.injEq .. ▸ Option.some.inj h
                      subst hd hr
                      exact ⟨'u' :: c1 :: c2 :: c3 :: c4 :: '\\' :: 'u' ::
                          d1 :: d2 :: d3 :: d4 :: [], rfl,
                        fun content rest hg =>
                          GStrBody.pair c1 c2 c3 c4 d1 d2 d3 d4 n m content rest
                            hn (by omega) hle hm hlo.1 hlo.2 hg⟩
                    · exact absurd h (by simp)
                  · exact absurd h (by simp)
                · exact absurd h (by simp)
              · exact absurd h (by simp)
            · exact absurd h (by simp)
        · exact absurd h (by simp)
      · exact absurd h (by simp)
    · rw [if_neg h9] at h
      exact absurd h (by simp)

theorem psl_sound : ∀ (fuel : Nat) (cs content r : List Char),
    parseStrLoop fuel cs = some (content, r) →
    ∃ pre, cs = pre ++ '"' :: r ∧ GStrBody content pre := by
  intro fuel
  induction fuel with
  | zero => intro cs content r h; simp [parseStrLoop] at h
  | succ fuel ih =>
    intro cs content r h
    cases cs with
    | nil => simp [parseStrLoop] at h
    | cons c rest =>
      by_cases hq : c = '"'
      · subst hq
        rw [psl_succ_quote] at h
        obtain ⟨hc, hr⟩ := Prod.mk.injEq .. ▸ Option.some.inj h
        subst hc hr
        exact ⟨[], rfl, GStrBody.nil⟩
      · by_cases hbs : c = '\\'
        · subst hbs
          rw [psl_succ_esc] at h
          split at h
          · rename_i d r1 hpe
            split at h
            · rename_i s r2 hloop
              obtain ⟨hc, hr⟩ := Prod.mk.injEq .. ▸ Option.some.inj h
              obtain ⟨pre1, hr1, hgS⟩ := ih r1 s r2 hloop
              obtain ⟨peP, hre, hcont⟩ := pe_sound rest d r1 hpe
              refine ⟨'\\' :: (peP ++ pre1), ?_, ?_⟩
              · rw [← hr, hre, hr1]
                simp [List.append_assoc]
              · rw [← hc]
                exact hcont s pre1 hgS
            · exact absurd h (by simp)
          · exact absurd h (by simp)
        · by_cases h32 : c.toNat < 32
          · rw [parseStrLoop.eq_def] at h
            dsimp only at h
            rw [if_neg hq, if_neg hbs, if_pos h32] at h
            exact absurd h (by simp)
          · rw [psl_succ_raw fuel c rest hq hbs h32] at h
            split at h
            · rename_i s r2 hloop
              obtain ⟨hc, hr⟩ := Prod.mk.injEq .. ▸ Option.some.inj h
              obtain ⟨pre1, hr1, hgS⟩ := ih rest s r2 hloop
              refine ⟨c :: pre1, ?_, ?_⟩
              · rw [← hr, hr1]
                rfl
              · rw [← hc]
                exact GStrBody.raw c s pre1 (by omega) hq hbs hgS
            · exact absurd h (by simp)

theorem psb_sound (cs content r : List Char)
    (h : parseStringBody cs = some (content, r)) :
    ∃ pre, cs = pre ++ '"' :: r ∧ GStrBody content pre := by
  exact psl_sound (cs.length + 1) cs content r h

theorem head_some_shape (l : List Char) (c : Char) (h : l.head? = some c) :
    l = c :: l.tail := by
  cases l with
  | nil => simp at h
  | cons a t =>
    simp only [List.head?_cons, Option.some.injEq] at h
    rw [h]
    rfl

theorem parseStep_sound : ∀ (fuel : Nat) (m : PMode) (cs : List Char)
    (res : PRes) (rest : List Char),
    parseStep fuel m cs = some (res, rest) →
    match res with
    | .v v => ∃ pre, cs = pre ++ rest ∧ GVal v pre
    | .es xs => ∃ pre, cs = pre ++ rest ∧ GElems xs pre
    | .ms fs => ∃ pre, cs = pre ++ rest ∧ GMembers fs pre := by
  intro fuel
  induction fuel with
  | zero => intro m cs res rest h; simp [parseStep] at h
  | succ fuel ih =>
    intro m cs res rest h
    cases m with
    | val =>
      cases cs with
      | nil => simp [parseStep] at h
      | cons c rest0 =>
        rw [parseStep.eq_def] at h
        dsimp only at h
        by_cases h1 : c = 'n'
        · rw [if_pos h1] at h
          split at h
          · rename_i r1 hec
            obtain ⟨hres, hrest⟩ := Prod.mk.injEq .. ▸ Option.some.inj h
            subst hres
            subst h1
            dsimp only
            refine ⟨['n', 'u', 'l', 'l'], ?_, GVal.gnull⟩
            rw [expectChars_sound _ _ _ hec, hrest]
            rfl
          · exact absurd h (by simp)
        · rw [if_neg h1] at h
          by_cases h2 : c = 't'
          · rw [if_pos h2] at h
            split at h
            · rename_i r1 hec
              obtain ⟨hres, hrest⟩ := Prod.mk.injEq .. ▸ Option.some.inj h
              subst hres
              subst h2
              dsimp only
              refine ⟨['t', 'r', 'u', 'e'], ?_, GVal.gtrue⟩
              rw [expectChars_sound _ _ _ hec, hrest]
              rfl
            · exact absurd h (by simp)
          · rw [if_neg h2] at h
            by_cases h3 : c = 'f'
            · rw [if_pos h3] at h
              split at h
              · rename_i r1 hec
                obtain ⟨hres, hrest⟩ := Prod.mk.injEq .. ▸ Option.some.inj h
                subst hres
                subst h3
                dsimp only
                refine ⟨['f', 'a', 'l', 's', 'e'], ?_, GVal.gfalse⟩
                rw [expectChars_sound _ _ _ hec, hrest]
                rfl
              · exact absurd h (by simp)
            · rw [if_neg h3] at h
              by_cases h4 : c = '"'
              · rw [if_pos h4] at h
                split at h
                · rename_i s r1 hpsb
                  obtain ⟨hres, hrest⟩ := Prod.mk.injEq .. ▸ Option.some.inj h
                  subst hres
                  subst h4
                  dsimp only
                  obtain ⟨pre1, hsh, hg⟩ := psb_sound rest0 s r1 hpsb
                  refine ⟨'"' :: pre1 ++ ['"'], ?_, ?_⟩
                  · rw [hsh, hrest]
                    simp [List.append_assoc]
                  · have := GVal.gstr (String.mk s) pre1 hg
                    simpa using this
                · exact absurd h (by simp)
              · rw [if_neg h4] at h
                by_cases h5 : c = '['
                · rw [if_pos h5] at h
                  obtain ⟨w, hw, hwall⟩ := skipWs_decomp rest0
                  split at h
                  · rename_i hhead
                    obtain ⟨hres, hrest⟩ := Prod.mk.injEq .. ▸ Option.some.inj h
                    subst hres
                    subst h5
                    dsimp only
                    have hshape := head_some_shape _ _ hhead
                    refine ⟨'[' :: w ++ [']'], ?_, GVal.garrNil w hwall⟩
                    rw [hw, hshape, hrest]
                    simp [List.append_assoc]
                  · split at h
                    · rename_i xs r2 helems
                      obtain ⟨hres, hrest⟩ := Prod.mk.injEq .. ▸ Option.some.inj h
                      subst hres
                      subst h5
                      dsimp only
                      have hs := ih PMode.elems (skipWs rest0) (.es xs) r2 helems
                      dsimp only at hs
                      obtain ⟨pre2, hsh2, hg2⟩ := hs
                      refine ⟨'[' :: w ++ pre2, ?_, GVal.garr xs w pre2 hwall hg2⟩
                      rw [hw, hsh2, hrest]
                      simp [List.append_assoc]
                    · exact absurd h (by simp)
                · rw [if_neg h5] at h
                  by_cases h6 : c = lbrace
                  · rw [if_pos h6] at h
                    obtain ⟨w, hw, hwall⟩ := skipWs_decomp rest0
                    split at h
                    · rename_i hhead
                      obtain ⟨hres, hrest⟩ := Prod.mk.injEq .. ▸ Option.some.inj h
                      subst hres
                      subst h6
                      dsimp only
                      have hshape := head_some_shape _ _ hhead
                      refine ⟨lbrace :: w ++ [rbrace], ?_, GVal.gobjNil w hwall⟩
                      rw [hw, hshape, hrest]
                      simp [List.append_assoc]
                    · split at h
                      · rename_i fs r2 hmem
                        obtain ⟨hres, hrest⟩ := Prod.mk.injEq .. ▸ Option.some.inj h
                        subst hres
                        subst h6
                        dsimp only
                        have hs := ih PMode.members (skipWs rest0) (.ms fs) r2 hmem
                        dsimp only at hs
                        obtain ⟨pre2, hsh2, hg2⟩ := hs
                        refine ⟨lbrace :: w ++ pre2, ?_,
                          GVal.gobj fs w pre2 hwall hg2⟩
                        rw [hw, hsh2, hrest]
                        simp [List.append_assoc]
                      · exact absurd h (by simp)
                  · rw [if_neg h6] at h
                    split at h
                    · rename_i i r1 hnum
                      obtain ⟨hres, hrest⟩ := Prod.mk.injEq .. ▸ Option.some.inj h
                      subst hres
                      dsimp only
                      obtain ⟨pre, hsh, hg⟩ := parseNumber_sound _ _ _ hnum
                      refine ⟨pre, ?_, GVal.gint i pre hg⟩
                      rw [hsh, hrest]
                    · exact absurd h (by simp)
    | elems =>
      rw [ps_elems] at h
      split at h
      · rename_i x r hval
        have hv := ih PMode.val cs (.v x) r hval
        dsimp only at hv
        obtain ⟨preV, hshV, hgV⟩ := hv
        obtain ⟨w, hw, hwall⟩ := skipWs_decomp r
        by_cases hc : (skipWs r).head? = some ','
        · rw [if_pos hc] at h
          split at h
          · rename_i xs r3 helems
            obtain ⟨hres, hrest⟩ := Prod.mk.injEq .. ▸ Option.some.inj h
            subst hres
            dsimp only
            have hshape := head_some_shape _ _ hc
            obtain ⟨w2, hw2, hwall2⟩ := skipWs_decomp (skipWs r).tail
            have he := ih PMode.elems (skipWs (skipWs r).tail) (.es xs) r3 helems
            dsimp only at he
            obtain ⟨preE, hshE, hgE⟩ := he
            refine ⟨preV ++ w ++ ',' :: (w2 ++ preE), ?_,
              GElems.cons x xs preV w w2 preE hgV hwall hwall2 hgE⟩
            rw [hshV, hw, hshape, hw2, hshE, hrest]
            simp [List.append_assoc]
          · exact absurd h (by simp)
        · rw [if_neg hc] at h
          by_cases hc2 : (skipWs r).head? = some ']'
          · rw [if_pos hc2] at h
            obtain ⟨hres, hrest⟩ := Prod.mk.injEq .. ▸ Option.some.inj h
            subst hres
            dsimp only
            have hshape := head_some_shape _ _ hc2
            refine ⟨preV ++ w ++ [']'], ?_, GElems.last x preV w hgV hwall⟩
            rw [hshV, hw, hshape, hrest]
            simp [List.append_assoc]
          · rw [if_neg hc2] at h
            exact absurd h (by simp)
      · exact absurd h (by simp)
    | members =>
      cases cs with
      | nil => simp [parseStep] at h
      | cons c rest0 =>
        rw [parseStep.eq_def] at h
        dsimp only at h
        by_cases h1 : c = '"'
        · rw [if_pos h1] at h
          subst h1
          split at h
          · rename_i kcs r1 hpsb
            obtain ⟨preK, hshK, hgK⟩ := psb_sound rest0 kcs r1 hpsb
            obtain ⟨w1, hw1, hwall1⟩ := skipWs_decomp r1
            by_cases hcol : (skipWs r1).head? = some ':'
            · rw [if_pos hcol] at h
              split at h
              · rename_i x r3 hval
                have hshape1 := head_some_shape _ _ hcol
                obtain ⟨w2, hw2, hwall2⟩ := skipWs_decomp (skipWs r1).tail
                have hv := ih PMode.val (skipWs (skipWs r1).tail) (.v x) r3 hval
                dsimp only at hv
                obtain ⟨preV, hshV, hgV⟩ := hv
                obtain ⟨w3, hw3, hwall3⟩ := skipWs_decomp r3
                by_cases hcom : (skipWs r3).head? = some ','
                · rw [if_pos hcom] at h
                  split at h
                  · rename_i fs r5 hmem
                    obtain ⟨hres, hrest⟩ := Prod.mk.injEq .. ▸ Option.some.inj h
                    subst hres
                    dsimp only
                    have hshape3 := head_some_shape _ _ hcom
                    obtain ⟨w4, hw4, hwall4⟩ := skipWs_decomp (skipWs r3).tail
                    have hm := ih PMode.members (skipWs (skipWs r3).tail)
                      (.ms fs) r5 hmem
                    dsimp only at hm
                    obtain ⟨preM, hshM, hgM⟩ := hm
                    refine ⟨'"' :: preK ++ ['"'] ++ w1 ++ ':' ::
                      (w2 ++ preV ++ w3 ++ ',' :: (w4 ++ preM)), ?_, ?_⟩
                    · rw [hshK, hw1, hshape1, hw2, hshV, hw3, hshape3, hw4,
                        hshM, hrest]
                      simp [List.append_assoc]
                    · have := GMembers.cons (String.mk kcs) x fs preK w1 w2 preV
                        w3 w4 preM (by simpa using hgK) hwall1 hwall2 hgV
                        hwall3 hwall4 hgM
                      exact this
                  · exact absurd h (by simp)
                · rw [if_neg hcom] at h
                  by_cases hrb : (skipWs r3).head? = some rbrace
                  · rw [if_pos hrb] at h
                    obtain ⟨hres, hrest⟩ := Prod.mk.injEq .. ▸ Option.some.inj h
                    subst hres
                    dsimp only
                    have hshape3 := head_some_shape _ _ hrb
                    refine ⟨'"' :: preK ++ ['"'] ++ w1 ++ ':' ::
                      (w2 ++ preV ++ w3 ++ [rbrace]), ?_, ?_⟩
                    · rw [hshK, hw1, hshape1, hw2, hshV, hw3, hshape3, hrest]
                      simp [List.append_assoc]
                    · exact GMembers.last (String.mk kcs) x preK w1 w2 preV w3
                        (by simpa using hgK) hwall1 hwall2 hgV hwall3
                  · rw [if_neg hrb] at h
                    exact absurd h (by simp)
              · exact absurd h (by simp)
            · rw [if_neg hcol] at h
              exact absurd h (by simp)
          · exact absurd h (by simp)
        · rw [if_neg h1] at h
          exact absurd h (by simp)

theorem loads_sound (s : String) (v : JValue) (h : loads s = .ok v) :
    JsonTextFor v s.data := by
  unfold loads at h
  split at h
  · rename_i x1 v' rest hps
    by_cases he : skipWs rest = []
    · rw [if_pos he] at h
      have hv : v' = v := Except.ok.inj h
      subst hv
      have hs := parseStep_sound _ PMode.val (skipWs s.data) (.v v') rest hps
      dsimp only at hs
      obtain ⟨pre, hsh, hg⟩ := hs
      obtain ⟨w1, hw1, hwall1⟩ := skipWs_decomp s.data
      refine ⟨w1, pre, rest, ?_, hwall1, skipWs_nil_wsOnly rest he, hg⟩
      rw [hw1, hsh]
      simp [List.append_assoc]
    · rw [if_neg he] at h
      exact absurd h (by simp)
  · exact absurd h (by simp)

theorem unpack_ok_of_decodeOk (f : String) (h : decodeOk f = true) :
    ∃ v, unpack_data f = .ok v := by
  unfold decodeOk at h
  split at h
  · rename_i v hv
    exact ⟨v, hv⟩
  · simp at h

theorem unpack_err_of_not_decodeOk (f : String) (h : decodeOk f = false) :
    ∃ e, unpack_data f = .error e := by
  unfold decodeOk at h
  split at h
  · simp at h
  · rename_i e he
    exact ⟨e, he⟩

theorem pf_cons_err (logger : Bool) (st : ClientState) (text : String)
    (rest : List String) (e : String) (h : unpack_data text = .error e) :
    processFrames logger st (text :: rest) =
      ([WEvent.printed ("recv " ++ text), WEvent.recordRecv text,
        WEvent.printed ("websocket unable to parse data: " ++ text)],
       _record_last_received_text st text, some (.valueError e)) := by
  simp [processFrames, h]

theorem pf_cons_ok (logger : Bool) (st : ClientState) (text : String)
    (rest : List String) (v : JValue) (h : unpack_data text = .ok v) :
    processFrames logger st (text :: rest) =
      ([WEvent.printed ("recv " ++ text), WEvent.recordRecv text] ++
        _log logger ("recv data: " ++ pyStr v) ++ [WEvent.onPacket v] ++
        (processFrames logger (_record_last_received_text st text) rest).1,
       (processFrames logger (_record_last_received_text st text) rest).2) := by
  simp [processFrames, h]

theorem pf_no_onConnected : ∀ (frames : List String) (logger : Bool)
    (st : ClientState),
    (processFrames logger st frames).1.filter isOnConnectedEv = [] := by
  intro frames
  induction frames with
  | nil => intro logger st; simp [processFrames]
  | cons text rest ih =>
    intro logger st
    cases hu : unpack_data text with
    | error err =>
      rw [pf_cons_err logger st text rest err hu]
      simp [isOnConnectedEv]
    | ok v =>
      rw [pf_cons_ok logger st text rest v hu]
      simp only [List.filter_append, ih, List.append_nil]
      unfold _log
      cases logger <;> simp [isOnConnectedEv]

theorem pf_good_bad : ∀ (good : List String) (logger : Bool) (st : ClientState)
    (bad : String) (after : List String),
    (∀ f ∈ good, decodeOk f = true) → decodeOk bad = false →
    (∃ e, (processFrames logger st (good ++ bad :: after)).2.2 =
      some (.valueError e)) ∧
    ((processFrames logger st (good ++ bad :: after)).1.filter
      isOnPacketEv).length = good.length ∧
    (processFrames logger st (good ++ bad :: after)).2.1.last_received_text =
      some (pyTake bad 1000) := by
  intro good
  induction good with
  | nil =>
    intro logger st bad after _ hbad
    obtain ⟨e, he⟩ := unpack_err_of_not_decodeOk bad hbad
    simp only [List.nil_append]
    rw [pf_cons_err logger st bad after e he]
    refine ⟨⟨e, rfl⟩, ?_, rfl⟩
    simp [isOnPacketEv]
  | cons f good ih =>
    intro logger st bad after hgood hbad
    obtain ⟨v, hv⟩ := unpack_ok_of_decodeOk f (hgood f (List.mem_cons_self f good))
    have hgood' : ∀ g ∈ good, decodeOk g = true :=
      fun g hg => hgood g (List.mem_cons_of_mem _ hg)
    obtain ⟨⟨e, he⟩, hlen, hst⟩ :=
      ih logger (_record_last_received_text st f) bad after hgood' hbad
    rw [List.cons_append, pf_cons_ok logger st f (good ++ bad :: after) v hv]
    refine ⟨⟨e, he⟩, ?_, hst⟩
    simp only [List.filter_append, List.length_append]
    rw [hlen]
    unfold _log
    cases logger <;> simp [isOnPacketEv] <;> omega

theorem runSession_conn (st : ClientState) (env : RunEnv) (url : String)
    (hp : st.proxy = some url) (hc : env.connectOk = true) :
    runSession st env =
      ([WEvent.wsConnect, WEvent.onConnected] ++
        (processFrames st.logger st env.frames).1,
       (processFrames st.logger st env.frames).2.1,
       match (processFrames st.logger st env.frames).2.2 with
       | some e => some e
       | none => if env.streamError then some .transportError else none) := by
  simp [runSession, hp, hc]

/-- C1: a fault raised inside the worker-loop task — here a decode failure on
an inbound frame — propagates out of `_run` as the task's exception, but no
code path invokes `on_error`: the session trace contains neither an
error-stream write nor a `sys.excepthook` hand-off, although the default
`on_error`, were it called, would format exactly the timestamped report
(fault kind, both diagnostics slots, trace) and write it to the error stream
before re-raising through `sys.excepthook`. -/
theorem run_fault_never_invokes_on_error :
    (runSession (clientInit initState "ws://test.host" "p" 1 60 none none)
        { connectOk := true, frames := ["not-json"], streamError := false }).2.2 =
      some (.valueError "Expecting value") ∧
    ((runSession (clientInit initState "ws://test.host" "p" 1 60 none none)
        { connectOk := true, frames := ["not-json"], streamError := false }).1.all
      (fun e => !isOnErrorEffect e)) = true ∧
    on_error
      (runSession (clientInit initState "ws://test.host" "p" 1 60 none none)
        { connectOk := true, frames := ["not-json"], streamError := false }).2.1
      "ValueError" "TB" "T0" =
      [WEvent.stderrWrite
        ("[T0]: Unhandled WebSocket Error:ValueError\nLastSentText:\nNone\n" ++
         "LastReceivedText:\nnot-json\nException trace: \nTB"),
       WEvent.excepthookCalled] :=
  ⟨rfl, rfl, rfl⟩

/-- C2: on a `Connected → Closed` transition — the inbound sequence ending in
a normal close, or in a transport fault — the client never invokes
`on_disconnected`: the session trace contains no such callback event. -/
theorem run_close_never_invokes_on_disconnected :
    (runSession (clientInit initState "ws://test.host" "p" 1 60 none none)
        { connectOk := true, frames := ["1"], streamError := false }).2.2 =
      none ∧
    ((runSession (clientInit initState "ws://test.host" "p" 1 60 none none)
        { connectOk := true, frames := ["1"], streamError := false }).1.all
      (fun e => !isOnDisconnectedEv e)) = true ∧
    (runSession (clientInit initState "ws://test.host" "p" 1 60 none none)
        { connectOk := true, frames := ["1"], streamError := true }).2.2 =
      some .transportError ∧
    ((runSession (clientInit initState "ws://test.host" "p" 1 60 none none)
        { connectOk := true, frames := ["1"], streamError := true }).1.all
      (fun e => !isOnDisconnectedEv e)) = true :=
  ⟨rfl, rfl, rfl, rfl⟩

/-- C3: decoding the default codec's encoding of a packet — a mapping of
string keys to values — reproduces the packet exactly:
`unpack_data (json.dumps P) = P`. -/
theorem unpack_data_dumps_roundtrip (fields : List (String × JValue))
    (_h : (fields.map Prod.fst).Nodup) :
    unpack_data (dumps (JValue.obj fields)) = .ok (JValue.obj fields) :=
  unpack_dumps (JValue.obj fields)

theorem unpack_data_dumps_roundtrip_witness :
    unpack_data (dumps (JValue.obj [("type", JValue.str "ping")])) =
      .ok (JValue.obj [("type", JValue.str "ping")]) :=
  unpack_data_dumps_roundtrip [("type", JValue.str "ping")] (by simp)

/-- C4: whenever the default decode operation `unpack_data` returns a value
rather than failing, its input was a well-formed JSON text denoting exactly
that value; contrapositively, on every input that is not valid JSON it fails
with the decode error, never returning a partial or garbage structure. -/
theorem unpack_data_ok_implies_valid_json (s : String) (v : JValue)
    (h : unpack_data s = .ok v) : JsonTextFor v s.data :=
  loads_sound s v h

theorem unpack_data_ok_implies_valid_json_witness :
    JsonTextFor (JValue.arr []) ("[]".data) :=
  unpack_data_ok_implies_valid_json "[]" (JValue.arr []) (by rfl)

/-- C5: a decode failure is fatal to the receive loop: the session's
exception is the `ValueError` from the bad frame, and `on_packet` fires only
for the frames decoded before it — none for the bad frame or any later
frame. -/
theorem decode_failure_fatal_to_session (st : ClientState) (url : String)
    (good : List String) (bad : String) (after : List String)
    (hp : st.proxy = some url)
    (hgood : ∀ f ∈ good, decodeOk f = true)
    (hbad : decodeOk bad = false) :
    (∃ e, (runSession st ⟨true, good ++ bad :: after, false⟩).2.2 =
      some (.valueError e)) ∧
    ((runSession st ⟨true, good ++ bad :: after, false⟩).1.filter
      isOnPacketEv).length = good.length := by
  rw [runSession_conn st _ url hp rfl]
  obtain ⟨⟨e, he⟩, hlen, _⟩ := pf_good_bad good st.logger st bad after hgood hbad
  refine ⟨⟨e, by rw [he]⟩, ?_⟩
  simp only [List.filter_append, List.length_append, hlen]
  simp [isOnPacketEv]

theorem decode_failure_fatal_to_session_witness :
    (∃ e, (runSession (clientInit initState "ws://h" "p" 1 60 none none)
        ⟨true, ["1"] ++ "not-json" :: ["2"], false⟩).2.2 =
      some (.valueError e)) ∧
    ((runSession (clientInit initState "ws://h" "p" 1 60 none none)
        ⟨true, ["1"] ++ "not-json" :: ["2"], false⟩).1.filter
      isOnPacketEv).length = (["1"] : List String).length :=
  decode_failure_fatal_to_session (clientInit initState "ws://h" "p" 1 60 none none)
    "http://p:1" ["1"] "not-json" ["2"] (by rfl) (by decide) (by decide)

/-- C6: the two diagnostics slots are unset before any traffic, each record
operation stores the text truncated with `text[:1000]`, and the stored text
has exactly 1000 characters whenever the source is longer than 1000. -/
theorem diagnostics_buffer_slots :
    initState.last_sent_text = none ∧ initState.last_received_text = none ∧
    (∀ (st : ClientState) (text : String),
      (_record_last_sent_text st text).last_sent_text =
        some (pyTake text 1000) ∧
      (_record_last_received_text st text).last_received_text =
        some (pyTake text 1000)) ∧
    (∀ text : String, 1000 < text.length → (pyTake text 1000).length = 1000) := by
  refine ⟨rfl, rfl, fun st text => ⟨rfl, rfl⟩, ?_⟩
  intro text h
  show (text.data.take 1000).length = 1000
  rw [List.length_take]
  have hlen : text.length = text.data.length := rfl
  omega

theorem diagnostics_buffer_slots_witness :
    (pyTake (String.mk (List.replicate 1001 'a')) 1000).length = 1000 :=
  diagnostics_buffer_slots.2.2.2 (String.mk (List.replicate 1001 'a'))
    (by show 1000 < (List.replicate 1001 'a').length
        rw [List.length_replicate]; omega)

/-- C7: `send_packet` writes the last-sent slot before the socket write is
scheduled (the `recordSent` action precedes `scheduleSend` in its action
list, and the state already holds the truncated wire text); the receive loop
records a frame before attempting to decode it (the `recordRecv` action is
emitted before any decode-dependent action), so after a decode failure the
buffer still holds the frame that caused it. -/
theorem buffer_written_before_io (st : ClientState) (p : JValue) (url : String)
    (good : List String) (bad : String) (after : List String)
    (text : String) (v : JValue) (rest : List String)
    (hp : st.proxy = some url)
    (hgood : ∀ f ∈ good, decodeOk f = true)
    (hbad : decodeOk bad = false)
    (hdec : unpack_data text = .ok v) :
    (∃ t, (send_packet st p).1 =
      WEvent.recordSent (dumps p) :: WEvent.scheduleSend (dumps p) :: t) ∧
    (send_packet st p).2.last_sent_text = some (pyTake (dumps p) 1000) ∧
    (∃ t, (processFrames st.logger st (text :: rest)).1 =
      WEvent.printed ("recv " ++ text) :: WEvent.recordRecv text :: t) ∧
    (runSession st ⟨true, good ++ bad :: after, false⟩).2.1.last_received_text =
        some (pyTake bad 1000) := by
  refine ⟨⟨_, rfl⟩, rfl, ?_, ?_⟩
  · rw [pf_cons_ok st.logger st text rest v hdec]
    exact ⟨_, rfl⟩
  · rw [runSession_conn st _ url hp rfl]
    exact (pf_good_bad good st.logger st bad after hgood hbad).2.2

theorem buffer_written_before_io_witness :
    (∃ t, (send_packet (clientInit initState "ws://h" "p" 1 60 none none)
        (JValue.obj [("type", JValue.str "ping")])).1 =
      WEvent.recordSent (dumps (JValue.obj [("type", JValue.str "ping")])) ::
      WEvent.scheduleSend (dumps (JValue.obj [("type", JValue.str "ping")])) :: t) ∧
    (send_packet (clientInit initState "ws://h" "p" 1 60 none none)
        (JValue.obj [("type", JValue.str "ping")])).2.last_sent_text =
      some (pyTake (dumps (JValue.obj [("type", JValue.str "ping")])) 1000) ∧
    (∃ t, (processFrames (clientInit initState "ws://h" "p" 1 60 none none).logger
        (clientInit initState "ws://h" "p" 1 60 none none) ("1" :: [])).1 =
      WEvent.printed ("recv " ++ "1") :: WEvent.recordRecv "1" :: t) ∧
    (runSession (clientInit initState "ws://h" "p" 1 60 none none)
        ⟨true, [] ++ "not-json" :: [], false⟩).2.1.last_received_text =
        some (pyTake "not-json" 1000) :=
  buffer_written_before_io (clientInit initState "ws://h" "p" 1 60 none none)
    (JValue.obj [("type", JValue.str "ping")]) "http://p:1" [] "not-json" []
    "1" (JValue.int 1) [] (by rfl) (by decide) (by decide) (by rfl)

/-- C8: in a session whose connect succeeds, `on_connected` fires exactly
once — as the first callback, before any `on_packet` — and never again in
the rest of the trace. -/
theorem on_connected_once_before_packets (st : ClientState) (env : RunEnv)
    (url : String) (hp : st.proxy = some url) (hc : env.connectOk = true) :
    ∃ t, (runSession st env).1 = WEvent.wsConnect :: WEvent.onConnected :: t ∧
      t.filter isOnConnectedEv = [] ∧
      ((runSession st env).1.filter isOnConnectedEv).length = 1 := by
  rw [runSession_conn st env url hp hc]
  refine ⟨(processFrames st.logger st env.frames).1, rfl,
    pf_no_onConnected env.frames st.logger st, ?_⟩
  simp [pf_no_onConnected, isOnConnectedEv]

theorem on_connected_once_before_packets_witness :
    ∃ t, (runSession (clientInit initState "ws://h" "p" 1 60 none none)
        { connectOk := true, frames := ["1"], streamError := false }).1 =
      WEvent.wsConnect :: WEvent.onConnected :: t ∧
      t.filter isOnConnectedEv = [] ∧
      ((runSession (clientInit initState "ws://h" "p" 1 60 none none)
        { connectOk := true, frames := ["1"], streamError := false }).1.filter
          isOnConnectedEv).length = 1 :=
  on_connected_once_before_packets (clientInit initState "ws://h" "p" 1 60 none none)
    { connectOk := true, frames := ["1"], streamError := false }
    "http://p:1" (by rfl) (by rfl)

/-- C9 counterexample: with a log sink configured, an inbound frame
`"hi"` (wire text, five characters including the quotes) is logged as
`recv data: hi` — the string rendering of the decoded packet — and no log
record carries the wire text; the logged payload differs from the wire
text, refuting the claim that both directions log the wire text line. -/
theorem recv_log_payload_not_wire_text :
    ((runSession (clientInit initState "ws://h" "p" 1 60 none (some "ws.log"))
        { connectOk := true, frames := ["\"hi\""], streamError := false }).1.any
      (isLogDebugEv ("recv data: " ++ pyStr (JValue.str "hi")))) = true ∧
    ((runSession (clientInit initState "ws://h" "p" 1 60 none (some "ws.log"))
        { connectOk := true, frames := ["\"hi\""], streamError := false }).1.any
      (isLogDebugEv ("recv data: " ++ "\"hi\""))) = false ∧
    pyStr (JValue.str "hi") ≠ "\"hi\"" :=
  ⟨rfl, rfl, by decide⟩

/-- C9 (amended): with a log sink configured, every sent text line is logged
at debug level as `sent text: ` followed by the wire text, and every
successfully decoded inbound frame is logged at debug level as `recv data: `
followed by the string rendering of the decoded packet — not the wire
text. -/
theorem log_sent_wire_recv_decoded (st : ClientState) (p : JValue)
    (text : String) (v : JValue) (rest : List String)
    (hl : st.logger = true) (hdec : unpack_data text = .ok v) :
    WEvent.logDebug ("sent text: " ++ dumps p) ∈ (send_packet st p).1 ∧
    ∃ t, (processFrames st.logger st (text :: rest)).1 =
      WEvent.printed ("recv " ++ text) :: WEvent.recordRecv text ::
      WEvent.logDebug ("recv data: " ++ pyStr v) :: WEvent.onPacket v :: t := by
  constructor
  · simp [send_packet, _log, hl]
  · rw [pf_cons_ok st.logger st text rest v hdec, hl]
    exact ⟨(processFrames true (_record_last_received_text st text) rest).1,
      by simp [_log]⟩

theorem log_sent_wire_recv_decoded_witness :
    WEvent.logDebug ("sent text: " ++ dumps (JValue.int 7)) ∈
      (send_packet (clientInit initState "ws://h" "p" 1 60 none (some "ws.log"))
        (JValue.int 7)).1 ∧
    ∃ t, (processFrames
        (clientInit initState "ws://h" "p" 1 60 none (some "ws.log")).logger
        (clientInit initState "ws://h" "p" 1 60 none (some "ws.log"))
        ("1" :: [])).1 =
      WEvent.printed ("recv " ++ "1") :: WEvent.recordRecv "1" ::
      WEvent.logDebug ("recv data: " ++ pyStr (JValue.int 1)) ::
      WEvent.onPacket (JValue.int 1) :: t :=
  log_sent_wire_recv_decoded
    (clientInit initState "ws://h" "p" 1 60 none (some "ws.log"))
    (JValue.int 7) "1" (JValue.int 1) [] (by rfl) (by rfl)

/-- C10: `init` assigns the `proxy` attribute only when both proxy host and
proxy port are truthy, while `_run` reads it unconditionally; a client
initialised without full proxy settings therefore has no `proxy` attribute,
and its connect task fails with `AttributeError` before any socket
connection is attempted (the session trace is empty — not even a connect
attempt). -/
theorem missing_proxy_attribute_faults_run (host ph : String) (pp : Int)
    (ping : Nat) (header : Option (List (String × String)))
    (lp : Option String) (env : RunEnv) (h : ph = "" ∨ pp = 0) :
    (clientInit initState host ph pp ping header lp).proxy = none ∧
    (runSession (clientInit initState host ph pp ping header lp) env).2.2 =
      some (.attributeError "proxy") ∧
    (runSession (clientInit initState host ph pp ping header lp) env).1 = [] := by
  have hpx : (clientInit initState host ph pp ping header lp).proxy = none := by
    unfold clientInit
    rw [if_neg (by
      rcases h with h | h
      · exact fun hc => hc.1 h
      · exact fun hc => hc.2 h)]
    cases header with
    | none => rfl
    | some l =>
      by_cases hl : l.isEmpty
      · simp [hl, initState]
      · simp [hl, initState]
  exact ⟨hpx, by simp [runSession, hpx], by simp [runSession, hpx]⟩

theorem missing_proxy_attribute_faults_run_witness :
    (clientInit initState "ws://h" "" 0 60 none none).proxy = none ∧
    (runSession (clientInit initState "ws://h" "" 0 60 none none)
      { connectOk := true, frames := ["1"], streamError := false }).2.2 =
      some (.attributeError "proxy") ∧
    (runSession (clientInit initState "ws://h" "" 0 60 none none)
      { connectOk := true, frames := ["1"], streamError := false }).1 = [] :=
  missing_proxy_attribute_faults_run "ws://h" "" 0 60 none none
    { connectOk := true, frames := ["1"], streamError := false } (Or.inl rfl)
